import Mathlib

/-!
# Matrix-multiplication benchmark engines: embedding and verified properties

Shallow embedding of the four C programs `mmClasicaFork.c`, `mmClasicaPosix.c`,
`mmClasicaOpenMP.c` and `mmFilasOpenMP.c`.

Modelling conventions
* A C `int` (and `time_t`, `suseconds_t`) is a mathematical `Int`; the C operator `/` is
  truncating division `Int.tdiv`. The 32-bit range of `int` and the bounds of the arrays are
  checked in `Fork.multiMatrixChk` and nowhere else.
* A `double *` buffer is a total map `Int → Int` from element offset to value: entries are
  exact integers in place of doubles, and a pointer into a buffer is its element offset.
* A `for (int i = lo; i < hi; i++)` loop whose body leaves `i` and `hi` alone is `forLoop`.
* Worker processes and POSIX threads, which share no variable but the result array and write
  disjoint rows of it, are run one after another, in the order they are created.
* The kernels `OpenMP.multiMatrix` and `Filas.multiMatrixTrans` are the row loop run in
  ascending order by one thread; a team of several threads is `regionRun`, where the threads
  interleave statement by statement over the one `Suma`, `pA`, `pB` the region has.
* The contents of `A` and `B` left by `iniMatrix` are parameters of each `main`.
-/

namespace MM

/-! ## Data model -/

/-- A buffer of matrix entries, addressed by element offset from its base pointer. -/
abbrev Buf := Int → Int

/-- The store `m[idx] = v`. -/
def Buf.write (m : Buf) (idx : Int) (v : Int) : Buf :=
  fun p => if p = idx then v else m p

/-- A buffer fresh from `calloc`: every entry is zero. -/
def zeros : Buf := fun _ => 0

/-- A buffer holding the listed values at offsets `0, 1, ...` and zero elsewhere. -/
def ofList (l : List Int) : Buf :=
  fun p => if 0 ≤ p then l.getD p.toNat 0 else 0

/-- The loop `for (int i = lo; i < hi; i++) s = body i s`. -/
def forLoop {σ : Type} (lo hi : Int) (body : Int → σ → σ) (s : σ) : σ :=
  if lo < hi then forLoop (lo + 1) hi body (body lo s) else s
termination_by (hi - lo).toNat
decreasing_by omega

/-- The locals `Suma`, `pA`, `pB` of the kernels; `pA` and `pB` are offsets into
the buffers `mA` and `mB`. -/
structure Cursor where
  Suma : Int
  pA : Int
  pB : Int

/-- The innermost loop of the classic kernel (the same text in `mmClasicaFork.c`,
`mmClasicaPosix.c` and `mmClasicaOpenMP.c`),
`for (k = 0; k < D; k++, pA++, pB += D) Suma += *pA * *pB;`
entered with `Suma = 0`, `pA = mA + i*D`, `pB = mB + j`; the value is the final `Suma`. -/
def classicCell (mA mB : Buf) (D i j : Int) : Int :=
  (forLoop 0 D
    (fun _ c => Cursor.mk (c.Suma + mA c.pA * mB c.pB) (c.pA + 1) (c.pB + D))
    (Cursor.mk 0 (i * D) j)).Suma

/-- The innermost loop of the transposed kernel of `mmFilasOpenMP.c`,
`for (k = 0; k < D; k++, pA++, pB++) Suma += *pA * *pB;`
entered with `Suma = 0`, `pA = mA + i*D`, `pB = mB + j*D`. -/
def transCell (mA mB : Buf) (D i j : Int) : Int :=
  (forLoop 0 D
    (fun _ c => Cursor.mk (c.Suma + mA c.pA * mB c.pB) (c.pA + 1) (c.pB + 1))
    (Cursor.mk 0 (i * D) (j * D))).Suma

/-- The C type `struct timeval`. -/
structure timeval where
  tv_sec : Int
  tv_usec : Int

/-- The function `FinMuestra` (the same in the four programs): `inicio` is the global set by
`InicioMuestra`, `fin` is what `gettimeofday` stores on the first line; the value is the
integer that is converted to `double` and printed. -/
def FinMuestra (inicio fin : timeval) : Int :=
  let fin1 : timeval := timeval.mk fin.tv_sec (fin.tv_usec - inicio.tv_usec)
  let fin2 : timeval := timeval.mk (fin1.tv_sec - inicio.tv_sec) fin1.tv_usec
  fin2.tv_sec * 1000000 + fin2.tv_usec

/-- How a run of a `main` ends; `ω` is the record kept for each worker it created. -/
inductive Outcome (ω : Type) where
  /-- `argc < 3`: the usage line is printed and the process ends with `exit(0)`. -/
  | usage : Outcome ω
  /-- An operation without defined behaviour was reached (a division by zero), or the choices
  given for the runtime do not make up a run. -/
  | undefined : Outcome ω
  /-- A worker could not be created: `perror` and `exit(1)` inside the timed region. -/
  | spawnFailed (spawned : List ω) : Outcome ω
  /-- The timed region was completed, `FinMuestra` printed the time and `main` returned 0;
  `matC` is the result buffer of the process that ran `main`. -/
  | finished (spawned : List ω) (matC : Buf) : Outcome ω

/-- The workers created during the run. -/
def Outcome.workers {ω : Type} : Outcome ω → List ω
  | Outcome.spawnFailed ws => ws
  | Outcome.finished ws _ => ws
  | _ => []

/-! ## `mmClasicaFork.c` -/

namespace Fork

/-- The function `multiMatrix(mA, mB, mC, D, filaI, filaF)`; the value is the buffer `mC` on
return. -/
def multiMatrix (mA mB mC : Buf) (D filaI filaF : Int) : Buf :=
  forLoop filaI filaF
    (fun i mC => forLoop 0 D (fun j mC => mC.write (i * D + j) (classicCell mA mB D i j)) mC)
    mC

/-- The local `rows_per_process = N / num_P` of `main`. -/
def rows_per_process (N num_P : Int) : Int := Int.tdiv N num_P

/-- The local `start_row = i * rows_per_process` of child `i`. -/
def start_row (N num_P i : Int) : Int := i * rows_per_process N num_P

/-- The local `end_row = (i == num_P - 1) ? N : start_row + rows_per_process` of child `i`. -/
def end_row (N num_P i : Int) : Int :=
  if i = num_P - 1 then N else start_row N num_P i + rows_per_process N num_P

/-- What a child process leaves behind: its row range and its own copy of `matC` at
`exit(0)`. -/
structure Child where
  start_row : Int
  end_row : Int
  matC : Buf

/-- The branch `pid == 0` of the loop of `main`: child `i` starts from a copy of the memory of the
parent at the time of the `fork()` and runs the kernel on its row range. -/
def child (matA matB matC : Buf) (N num_P i : Int) : Child :=
  Child.mk (start_row N num_P i) (end_row N num_P i)
    (multiMatrix matA matB matC N (start_row N num_P i) (end_row N num_P i))

/-- The loop `for (int i = 0; i < num_P; i++) { pid = fork(); ... }` of `main` from iteration `i`
on, followed by the wait loop and `FinMuestra`; `forkOk i` tells whether the `fork()` of iteration
`i` succeeds. The parent writes nothing into its own `matC`. -/
def spawnLoop (forkOk : Int → Bool) (matA matB matC : Buf) (N num_P : Int) (i : Int)
    (children : List Child) : Outcome Child :=
  if i < num_P then
    if forkOk i then
      spawnLoop forkOk matA matB matC N num_P (i + 1)
        (children ++ [child matA matB matC N num_P i])
    else Outcome.spawnFailed children
  else Outcome.finished children matC
termination_by (num_P - i).toNat
decreasing_by omega

/-- The function `main`, with `N = atoi(argv[1])` and `num_P = atoi(argv[2])`. -/
def main (argc N num_P : Int) (forkOk : Int → Bool) (matA matB : Buf) : Outcome Child :=
  if argc < 3 then Outcome.usage
  else if num_P = 0 then Outcome.undefined
  else spawnLoop forkOk matA matB zeros N num_P 0 []

/-- The kernel calls of the loop of `main` for `num_P` workers, applied one after another to one
and the same buffer `matC`. -/
def sequential (matA matB matC : Buf) (N num_P : Int) : Buf :=
  forLoop 0 num_P
    (fun i mC => multiMatrix matA matB mC N (start_row N num_P i) (end_row N num_P i)) matC

end Fork

/-! ## `mmClasicaPosix.c` -/

namespace Posix

/-- The C type `struct parametros`. -/
structure parametros where
  nH : Int
  idH : Int
  N : Int

/-- The local `filaI = (D / nH) * idH` of the thread function. -/
def filaI (data : parametros) : Int := Int.tdiv data.N data.nH * data.idH

/-- The local `filaF = (D / nH) * (idH + 1)` of the thread function. -/
def filaF (data : parametros) : Int := Int.tdiv data.N data.nH * (data.idH + 1)

/-- The thread function `multiMatrix(variables)`, with the globals `matrixA`, `matrixB`,
`matrixC` passed explicitly; the value is `matrixC` when the thread ends. `main` creates
threads only with `nH ≥ 1`. -/
def multiMatrix (matrixA matrixB matrixC : Buf) (data : parametros) : Buf :=
  forLoop (filaI data) (filaF data)
    (fun i mC =>
      forLoop 0 data.N
        (fun j mC => mC.write (i * data.N + j) (classicCell matrixA matrixB data.N i j)) mC)
    matrixC

/-- The function `main`, with `N = atoi(argv[1])` and `n_threads = atoi(argv[2])`. Every
`pthread_create` is taken to succeed (the code does not look at what it returns). For
`n_threads ≤ 0` the creation loop and the join loop run no iteration and the array `p` is never
used: no thread is created and `matrixC` stays as `calloc` left it. -/
def main (argc N n_threads : Int) (matA matB : Buf) : Outcome parametros :=
  if argc < 3 then Outcome.usage
  else
    let run := forLoop 0 n_threads
      (fun j (st : List parametros × Buf) =>
        (st.1 ++ [parametros.mk n_threads j N],
          multiMatrix matA matB st.2 (parametros.mk n_threads j N)))
      ([], zeros)
    Outcome.finished run.1 run.2

end Posix

/-! ## `mmClasicaOpenMP.c` -/

namespace OpenMP

/-- The function `multiMatrix(mA, mB, mC, D)`, its work-shared row loop run in ascending order. -/
def multiMatrix (mA mB mC : Buf) (D : Int) : Buf :=
  forLoop 0 D
    (fun i mC => forLoop 0 D (fun j mC => mC.write (i * D + j) (classicCell mA mB D i j)) mC)
    mC

end OpenMP

/-! ## `mmFilasOpenMP.c` -/

namespace Filas

/-- The function `multiMatrixTrans(mA, mB, mC, D)`, its work-shared row loop run in ascending
order. -/
def multiMatrixTrans (mA mB mC : Buf) (D : Int) : Buf :=
  forLoop 0 D
    (fun i mC => forLoop 0 D (fun j mC => mC.write (i * D + j) (transCell mA mB D i j)) mC)
    mC

end Filas

/-- The first `n` entries of a buffer, offsets `0 .. n-1`. -/
def Buf.toList (m : Buf) (n : Nat) : List Int :=
  (List.range n).map (fun (k : Nat) => m k)

/-! ## The kernel as a transformer of the three arrays -/

/-- The three arrays a kernel call refers to, each a separate object obtained from `calloc`. -/
structure Mem where
  mA : Buf
  mB : Buf
  mC : Buf

/-- The function `multiMatrix(mA, mB, mC, D, filaI, filaF)` of `mmClasicaFork.c` acting on the
three arrays behind its pointer arguments: the innermost loop reads `*pA` and `*pB` from the
arrays as they are at that moment, and the only store of the function is `mC[i*D+j] = Suma`. -/
def Fork.multiMatrixMem (m : Mem) (D filaI filaF : Int) : Mem :=
  forLoop filaI filaF
    (fun i m =>
      forLoop 0 D
        (fun j m => Mem.mk m.mA m.mB (m.mC.write (i * D + j) (classicCell m.mA m.mB D i j))) m)
    m

/-! ## The kernel with its index arithmetic and its array accesses checked -/

/-- A value of the 32-bit signed type `int`: `none` when it does not fit. -/
def int32 (x : Int) : Option Int :=
  if -2147483648 ≤ x ∧ x ≤ 2147483647 then some x else none

/-- The read `m[p]` from an array of `size` elements: `none` when `p` is outside `[0, size)`. -/
def Buf.readChk (m : Buf) (size p : Int) : Option Int :=
  if 0 ≤ p ∧ p < size then some (m p) else none

/-- The store `m[p] = v` into an array of `size` elements: `none` when `p` is outside
`[0, size)`. -/
def Buf.writeChk (m : Buf) (size p v : Int) : Option Buf :=
  if 0 ≤ p ∧ p < size then some (m.write p v) else none

/-- The innermost loop of the classic kernel with the product `i * D` held in an `int` and every
dereference `*pA`, `*pB` checked against arrays of `size` elements. -/
def classicCellChk (mA mB : Buf) (size D i j : Int) : Option Int :=
  (int32 (i * D)).bind fun iD =>
    (forLoop 0 D
      (fun _ (oc : Option Cursor) => oc.bind fun c =>
        (mA.readChk size c.pA).bind fun a =>
          (mB.readChk size c.pB).bind fun b =>
            some (Cursor.mk (c.Suma + a * b) (c.pA + 1) (c.pB + D)))
      (some (Cursor.mk 0 iD j))).map Cursor.Suma

/-- The function `multiMatrix` of `mmClasicaFork.c` with the index `i * D + j` held in an `int`
and every array access checked against arrays of `size` elements; `none` as soon as one check
fails. -/
def Fork.multiMatrixChk (mA mB mC : Buf) (size D filaI filaF : Int) : Option Buf :=
  forLoop filaI filaF
    (fun i (o : Option Buf) =>
      forLoop 0 D
        (fun j (o : Option Buf) => o.bind fun mC =>
          (classicCellChk mA mB size D i j).bind fun Suma =>
            (int32 (i * D)).bind fun iD =>
              (int32 (iD + j)).bind fun idx => mC.writeChk size idx Suma)
        o)
    (some mC)

/-! ## The parallel region of the OpenMP kernels, thread by thread

In `multiMatrix` of `mmClasicaOpenMP.c` and in `multiMatrixTrans` of `mmFilasOpenMP.c` the
variables `Suma`, `pA`, `pB` are declared before `#pragma omp parallel` and the directive has no
`private` clause: the region has one `Suma`, one `pA` and one `pB`, used by all threads. The loop
variables `i`, `j`, `k` are declared inside the region and belong to each thread. A step of a
thread is one whole statement; threads on a machine can interleave more finely than that, so
every run of this model is a run the program can make. -/

/-- The statement a thread executes next in the body of the work-shared loop. -/
inductive Pc where
  /-- The test `j < D` of the loop over `j`. -/
  | colTest : Pc
  /-- The statement `pA = mA + i * D;`. -/
  | setPA : Pc
  /-- The statement `pB = mB + j;` (classic) or `pB = mB + j * D;` (transposed). -/
  | setPB : Pc
  /-- The statement `Suma = 0.0;` and the start `k = 0` of the loop over `k`. -/
  | setSuma : Pc
  /-- The test `k < D` of the loop over `k`. -/
  | dotTest : Pc
  /-- The statement `Suma += *pA * *pB;` with the step `k++, pA++, pB += D` (`pB++`). -/
  | dotBody : Pc
  /-- The statement `mC[i * D + j] = Suma;` with the step `j++`. -/
  | store : Pc

/-- What the threads of the region have in common: the variables `Suma`, `pA`, `pB` of the
enclosing function and the result array. -/
structure Shared where
  Suma : Int
  pA : Int
  pB : Int
  mC : Buf

/-- What each thread has of its own: the rows the runtime gave it that are not finished (the
first one is its current `i`), its `j`, its `k`, and its next statement. -/
structure Thread where
  rows : List Int
  j : Int
  k : Int
  pc : Pc

/-- One statement of one thread; `trans` selects the kernel of `mmFilasOpenMP.c`. A thread
without rows left waits at the end of the loop. -/
def regionStep (trans : Bool) (mA mB : Buf) (D : Int) (sh : Shared) (t : Thread) :
    Shared × Thread :=
  match t.rows with
  | [] => (sh, t)
  | i :: rest =>
    match t.pc with
    | Pc.colTest =>
      if t.j < D then (sh, Thread.mk t.rows t.j t.k Pc.setPA)
      else (sh, Thread.mk rest 0 t.k Pc.colTest)
    | Pc.setPA => (Shared.mk sh.Suma (i * D) sh.pB sh.mC, Thread.mk t.rows t.j t.k Pc.setPB)
    | Pc.setPB =>
      (Shared.mk sh.Suma sh.pA (if trans then t.j * D else t.j) sh.mC,
        Thread.mk t.rows t.j t.k Pc.setSuma)
    | Pc.setSuma => (Shared.mk 0 sh.pA sh.pB sh.mC, Thread.mk t.rows t.j 0 Pc.dotTest)
    | Pc.dotTest =>
      if t.k < D then (sh, Thread.mk t.rows t.j t.k Pc.dotBody)
      else (sh, Thread.mk t.rows t.j t.k Pc.store)
    | Pc.dotBody =>
      (Shared.mk (sh.Suma + mA sh.pA * mB sh.pB) (sh.pA + 1)
          (sh.pB + (if trans then 1 else D)) sh.mC,
        Thread.mk t.rows t.j (t.k + 1) Pc.dotTest)
    | Pc.store =>
      (Shared.mk sh.Suma sh.pA sh.pB (sh.mC.write (i * D + t.j) sh.Suma),
        Thread.mk t.rows (t.j + 1) t.k Pc.colTest)

/-- The parallel region: the shared variables and the threads. -/
structure Region where
  sh : Shared
  threads : List Thread

/-- The region at its start: `assign` lists, for each thread, the rows `i` the runtime gives it.
The shared `Suma`, `pA`, `pB` are not initialised by the code and are taken as 0. -/
def regionStart (mC : Buf) (assign : List (List Int)) : Region :=
  Region.mk (Shared.mk 0 0 0 mC) (assign.map (fun rows => Thread.mk rows 0 0 Pc.colTest))

/-- Thread number `n` executes its next statement. -/
def regionStepAt (trans : Bool) (mA mB : Buf) (D : Int) (r : Region) (n : Nat) : Region :=
  match r.threads.get? n with
  | none => r
  | some t =>
    Region.mk (regionStep trans mA mB D r.sh t).1
      (r.threads.set n (regionStep trans mA mB D r.sh t).2)

/-- The region run under a schedule: the list of the thread numbers in the order in which the
threads execute their statements. -/
def regionRun (trans : Bool) (mA mB : Buf) (D : Int) (schedule : List Nat) (r : Region) :
    Region :=
  schedule.foldl (regionStepAt trans mA mB D) r

/-- Whether every thread has finished its rows. -/
def Region.finished (r : Region) : Bool :=
  r.threads.all (fun t => t.rows.isEmpty)

/-! ## The `main` functions of the OpenMP programs

`omp_set_num_threads(TH)` fixes the size of the team of the parallel region. With `TH ≤ 1` the
team is a single thread (the OpenMP runtimes replace a non-positive value by 1), which runs the
whole row loop in ascending order with `Suma`, `pA`, `pB` to itself. With `TH ≥ 2` the runtime
chooses which rows each thread gets (`assign`, one list of rows per thread of the team) and the
order in which the threads execute their statements (`schedule`); the run ends at the barrier of
the loop, when every thread has finished its rows. -/

/-- The function `main` of `mmClasicaOpenMP.c`, with `N = atoi(argv[1])` and
`TH = atoi(argv[2])`. For `TH ≥ 2`, `assign` and `schedule` are the choices of the runtime; a
schedule that stops before every thread has finished is not a run and gives
`Outcome.undefined`. -/
def OpenMP.main (argc N TH : Int) (assign : List (List Int)) (schedule : List Nat)
    (matA matB : Buf) : Outcome Empty :=
  if argc < 3 then Outcome.usage
  else if TH ≤ 1 then Outcome.finished [] (OpenMP.multiMatrix matA matB zeros N)
  else if (regionRun false matA matB N schedule (regionStart zeros assign)).finished then
    Outcome.finished [] (regionRun false matA matB N schedule (regionStart zeros assign)).sh.mC
  else Outcome.undefined

/-- The function `main` of `mmFilasOpenMP.c`, with `N = atoi(argv[1])` and
`TH = atoi(argv[2])`. For `TH ≥ 2`, `assign` and `schedule` are the choices of the runtime; a
schedule that stops before every thread has finished is not a run and gives
`Outcome.undefined`. -/
def Filas.main (argc N TH : Int) (assign : List (List Int)) (schedule : List Nat)
    (matA matB : Buf) : Outcome Empty :=
  if argc < 3 then Outcome.usage
  else if TH ≤ 1 then Outcome.finished [] (Filas.multiMatrixTrans matA matB zeros N)
  else if (regionRun true matA matB N schedule (regionStart zeros assign)).finished then
    Outcome.finished [] (regionRun true matA matB N schedule (regionStart zeros assign)).sh.mC
  else Outcome.undefined

/-! ## Loop lemmas -/

theorem forLoop_done {σ : Type} (lo hi : Int) (body : Int → σ → σ) (s : σ) (h : hi ≤ lo) :
    forLoop lo hi body s = s := by
  rw [forLoop, if_neg (by omega)]

theorem forLoop_step {σ : Type} (lo hi : Int) (body : Int → σ → σ) (s : σ) (h : lo < hi) :
    forLoop lo hi body s = forLoop (lo + 1) hi body (body lo s) := by
  rw [forLoop, if_pos h]

/-- Invariant rule: a property that holds on entry and is carried by every iteration holds on
exit. -/
theorem forLoop_inv {σ : Type} (P : Int → σ → Prop) (hi : Int) (body : Int → σ → σ) :
    ∀ (n : Nat) (lo : Int) (s : σ), (hi - lo).toNat = n → lo ≤ hi → P lo s →
      (∀ i t, lo ≤ i → i < hi → P i t → P (i + 1) (body i t)) →
      P hi (forLoop lo hi body s) := by
  intro n
  induction n with
  | zero =>
    intro lo s hn hle h0 _
    have : lo = hi := by omega
    subst this
    rw [forLoop_done _ _ _ _ (le_refl _)]
    exact h0
  | succ n ih =>
    intro lo s hn hle h0 hstep
    have hlt : lo < hi := by omega
    rw [forLoop_step _ _ _ _ hlt]
    apply ih (lo + 1) (body lo s) (by omega) (by omega) (hstep lo s (le_refl _) hlt h0)
    intro i t h1 h2 h3
    exact hstep i t (by omega) h2 h3

theorem forLoop_invariant {σ : Type} (P : Int → σ → Prop) (lo hi : Int) (body : Int → σ → σ)
    (s : σ) (hle : lo ≤ hi) (h0 : P lo s)
    (hstep : ∀ i t, lo ≤ i → i < hi → P i t → P (i + 1) (body i t)) :
    P hi (forLoop lo hi body s) :=
  forLoop_inv P hi body (hi - lo).toNat lo s rfl hle h0 hstep

theorem write_same (m : Buf) (idx v : Int) : m.write idx v idx = v := by
  simp [Buf.write]

theorem write_other (m : Buf) (idx v p : Int) (h : p ≠ idx) : m.write idx v p = m p := by
  simp [Buf.write, h]

/-- Row `p / D` and column `p % D` of the offset `p = i * D + j`. -/
theorem cell_div_mod (D i j : Int) (hj0 : 0 ≤ j) (hjD : j < D) :
    (i * D + j) / D = i ∧ (i * D + j) % D = j := by
  have hD : 0 < D := by omega
  rw [Int.ediv_emod_unique hD]
  refine ⟨by ring, hj0, hjD⟩

/-- The innermost loop leaves in `Suma` the products accumulated from 0 in ascending `k`. -/
theorem classicCell_foldl (mA mB : Buf) (D i j : Int) (hD : 0 ≤ D) :
    classicCell mA mB D i j
      = (List.range D.toNat).foldl (fun (s : Int) (k : Nat) => s + mA (i * D + k) * mB (k * D + j)) 0 := by
  unfold classicCell
  have key := forLoop_invariant
    (fun (k : Int) (c : Cursor) => 0 ≤ k ∧ c.pA = i * D + k ∧ c.pB = j + k * D ∧
      c.Suma = (List.range k.toNat).foldl (fun (s : Int) (n : Nat) => s + mA (i * D + n) * mB (n * D + j)) 0)
    0 D (fun _ c => Cursor.mk (c.Suma + mA c.pA * mB c.pB) (c.pA + 1) (c.pB + D))
    (Cursor.mk 0 (i * D) j) hD
    (by simp)
    (by
      rintro k c hk0 _ ⟨_, hpA, hpB, hS⟩
      refine ⟨by omega, by simp [hpA]; ring, by simp [hpB]; ring, ?_⟩
      have hk : (k + 1).toNat = k.toNat + 1 := by omega
      have hkk : ((k.toNat : Nat) : Int) = k := Int.toNat_of_nonneg hk0
      simp only [hk, List.range_succ, List.foldl_append, List.foldl_cons, List.foldl_nil]
      rw [← hS, hpA, hpB, hkk]
      congr 2
      ring_nf)
  exact key.2.2.2

theorem foldl_add_eq_sum (f : Nat → Int) (n : Nat) :
    (List.range n).foldl (fun (s : Int) (k : Nat) => s + f k) 0 = ∑ k in Finset.range n, f k := by
  induction n with
  | zero => simp
  | succ n ih => simp [List.range_succ, List.foldl_append, Finset.sum_range_succ, ih]

theorem classicCell_sum (mA mB : Buf) (D i j : Int) (hD : 0 ≤ D) :
    classicCell mA mB D i j
      = ∑ k in Finset.range D.toNat, mA (i * D + k) * mB (k * D + j) := by
  rw [classicCell_foldl mA mB D i j hD]
  exact foldl_add_eq_sum (fun k => mA (i * D + k) * mB (k * D + j)) D.toNat

/-- The column loop of a kernel writes `g j` at offset `base + j` for every `0 ≤ j < D`. -/
theorem colLoop_apply (g : Int → Int) (D base : Int) (C : Buf) (hD : 0 ≤ D) (p : Int) :
    forLoop 0 D (fun j mC => Buf.write mC (base + j) (g j)) C p
      = if base ≤ p ∧ p < base + D then g (p - base) else C p := by
  have key := forLoop_invariant
    (fun (j : Int) (mC : Buf) => 0 ≤ j ∧
      ∀ q, mC q = if base ≤ q ∧ q < base + j then g (q - base) else C q)
    0 D (fun j mC => Buf.write mC (base + j) (g j)) C hD
    (by
      refine ⟨le_refl _, fun q => ?_⟩
      rw [if_neg (by omega)])
    (by
      rintro j mC hj0 _ ⟨_, hmC⟩
      refine ⟨by omega, fun q => ?_⟩
      show Buf.write mC (base + j) (g j) q = _
      by_cases hq : q = base + j
      · subst hq
        rw [write_same, if_pos (by omega)]
        congr 1
        omega
      · rw [write_other _ _ _ _ hq, hmC q]
        by_cases h1 : base ≤ q ∧ q < base + j
        · rw [if_pos h1, if_pos (by omega)]
        · rw [if_neg h1, if_neg (by omega)])
  exact key.2 p

/-- Closed form of the two outer loops of a kernel: rows `filaI ≤ i < filaF` of the buffer receive
the cell values `g i j`, every other offset keeps its content. -/
theorem rowsLoop_apply (g : Int → Int → Int) (D filaI filaF : Int) (C : Buf) (hD : 1 ≤ D)
    (p : Int) :
    forLoop filaI filaF
        (fun i mC => forLoop 0 D (fun j mC => Buf.write mC (i * D + j) (g i j)) mC) C p
      = if filaI * D ≤ p ∧ p < filaF * D then g (p / D) (p % D) else C p := by
  by_cases hle : filaI ≤ filaF
  · have key := forLoop_invariant
      (fun (i : Int) (mC : Buf) => filaI ≤ i ∧
        ∀ q, mC q = if filaI * D ≤ q ∧ q < i * D then g (q / D) (q % D) else C q)
      filaI filaF
      (fun i mC => forLoop 0 D (fun j mC => Buf.write mC (i * D + j) (g i j)) mC) C hle
      (by
        refine ⟨le_refl _, fun q => ?_⟩
        rw [if_neg (by omega)])
      (by
        rintro i mC hi _ ⟨_, hmC⟩
        refine ⟨by omega, fun q => ?_⟩
        show forLoop 0 D (fun j mC => Buf.write mC (i * D + j) (g i j)) mC q = _
        rw [colLoop_apply (g i) D (i * D) mC (by omega) q]
        have h1 : (i + 1) * D = i * D + D := by ring
        have h2 : filaI * D ≤ i * D := mul_le_mul_of_nonneg_right hi (by omega)
        by_cases hq : i * D ≤ q ∧ q < i * D + D
        · rw [if_pos hq, if_pos (by omega)]
          have h3 := cell_div_mod D i (q - i * D) (by omega) (by omega)
          have h4 : i * D + (q - i * D) = q := by ring
          rw [h4] at h3
          rw [h3.1, h3.2]
        · rw [if_neg hq, hmC q]
          by_cases h5 : filaI * D ≤ q ∧ q < i * D
          · rw [if_pos h5, if_pos (by omega)]
          · rw [if_neg h5, if_neg (by omega)])
    exact key.2 p
  · rw [forLoop_done _ _ _ _ (by omega)]
    have h2 : filaF * D ≤ filaI * D := mul_le_mul_of_nonneg_right (by omega) (by omega)
    rw [if_neg (by omega)]

/-- Closed form of `multiMatrix` of `mmClasicaFork.c`. -/
theorem fork_multiMatrix_apply (mA mB mC : Buf) (D filaI filaF : Int) (hD : 1 ≤ D) (p : Int) :
    Fork.multiMatrix mA mB mC D filaI filaF p
      = if filaI * D ≤ p ∧ p < filaF * D then classicCell mA mB D (p / D) (p % D) else mC p :=
  rowsLoop_apply (classicCell mA mB D) D filaI filaF mC hD p

/-! ## The classic kernel -/

/-- The cell `(i, j)` of a row in range holds the result of the innermost loop. -/
theorem fork_multiMatrix_cell (D filaI filaF : Int) (A B C : Buf) (hD : 1 ≤ D)
    (i j : Int) (hi : filaI ≤ i ∧ i < filaF) (hj : 0 ≤ j ∧ j < D) :
    Fork.multiMatrix A B C D filaI filaF (i * D + j) = classicCell A B D i j := by
  have h1 : filaI * D ≤ i * D := mul_le_mul_of_nonneg_right hi.1 (by omega)
  have h2 : (i + 1) * D ≤ filaF * D := mul_le_mul_of_nonneg_right (by omega) (by omega)
  have h3 : (i + 1) * D = i * D + D := by ring
  have hcell := cell_div_mod D i j hj.1 hj.2
  rw [fork_multiMatrix_apply A B C D filaI filaF hD, if_pos (by omega), hcell.1, hcell.2]

/-- C1. Classic kernel correctness: after `multiMatrix(A, B, C, D, filaI, filaF)` of
`mmClasicaFork.c`, every cell of a row `filaI ≤ i < filaF` and a column `0 ≤ j < D` holds the
products `A[i*D+k] * B[k*D+j]` accumulated from 0 in ascending `k = 0..D-1`, which is their sum.
The bounds `0 ≤ filaI` and `filaF ≤ D` of the row range are not needed for this. -/
theorem classic_kernel_correct (D filaI filaF : Int) (A B C : Buf) (hD : 1 ≤ D)
    (i j : Int) (hi : filaI ≤ i ∧ i < filaF) (hj : 0 ≤ j ∧ j < D) :
    Fork.multiMatrix A B C D filaI filaF (i * D + j)
        = (List.range D.toNat).foldl
            (fun (s : Int) (k : Nat) => s + A (i * D + k) * B (k * D + j)) 0
      ∧ Fork.multiMatrix A B C D filaI filaF (i * D + j)
        = ∑ k in Finset.range D.toNat, A (i * D + k) * B (k * D + j) := by
  rw [fork_multiMatrix_cell D filaI filaF A B C hD i j hi hj]
  exact ⟨classicCell_foldl A B D i j (by omega), classicCell_sum A B D i j (by omega)⟩

/-- C1 at `D = 2`, `A = [1,2,3,4]`, `B = [5,6,7,8]`, rows `[0, 2)`, cell `(1, 0)`: the kernel
stores `3*5 + 4*7 = 43`. -/
theorem classic_kernel_correct_witness :
    Fork.multiMatrix (ofList [1, 2, 3, 4]) (ofList [5, 6, 7, 8]) zeros 2 0 2 (1 * 2 + 0) = 43 := by
  have h := (classic_kernel_correct 2 0 2 (ofList [1, 2, 3, 4]) (ofList [5, 6, 7, 8]) zeros
    (by decide) 1 0 ⟨by decide, by decide⟩ ⟨by decide, by decide⟩).2
  rw [h]
  decide

/-- C10. Identity check: when `B` is the `D×D` identity matrix, the classic kernel run over all
rows, `multiMatrix(A, B, C, D, 0, D)`, leaves in every cell of `C` the entry of `A` of that cell. -/
theorem identity_right (D : Int) (A B C : Buf) (hD : 1 ≤ D)
    (hB : ∀ k j : Int, 0 ≤ k → k < D → 0 ≤ j → j < D → B (k * D + j) = if k = j then 1 else 0)
    (i j : Int) (hi : 0 ≤ i ∧ i < D) (hj : 0 ≤ j ∧ j < D) :
    Fork.multiMatrix A B C D 0 D (i * D + j) = A (i * D + j) := by
  rw [fork_multiMatrix_cell D 0 D A B C hD i j hi hj, classicCell_sum A B D i j (by omega)]
  have hjn : ((j.toNat : Nat) : Int) = j := Int.toNat_of_nonneg hj.1
  rw [Finset.sum_eq_single j.toNat]
  · rw [hjn, hB j j hj.1 hj.2 hj.1 hj.2, if_pos rfl, mul_one]
  · intro k hk hne
    have hk1 : (k : Int) < D := by
      have := Finset.mem_range.mp hk
      omega
    rw [hB k j (by omega) hk1 hj.1 hj.2, if_neg (by omega), mul_zero]
  · intro hnot
    exact absurd (Finset.mem_range.mpr (by omega)) hnot

/-- C10 at `D = 2`, `A = [1,2,3,4]`, `B = [1,0,0,1]`, cell `(1, 0)`. -/
theorem identity_right_witness :
    Fork.multiMatrix (ofList [1, 2, 3, 4]) (ofList [1, 0, 0, 1]) zeros 2 0 2 (1 * 2 + 0)
      = ofList [1, 2, 3, 4] (1 * 2 + 0) :=
  identity_right 2 (ofList [1, 2, 3, 4]) (ofList [1, 0, 0, 1]) zeros (by decide)
    (by
      intro k j hk0 hk2 hj0 hj2
      have hk : k = 0 ∨ k = 1 := by omega
      have hj : j = 0 ∨ j = 1 := by omega
      rcases hk with rfl | rfl <;> rcases hj with rfl | rfl <;> decide)
    1 0 ⟨by decide, by decide⟩ ⟨by decide, by decide⟩

/-! ## The row partition of `mmClasicaFork.c` -/

/-- For `D ≥ 0` and `W ≥ 1` the C quotient `D / W` is the floor `⌊D/W⌋`. -/
theorem rows_per_process_bounds (D W : Int) (hD : 0 ≤ D) (hW : 1 ≤ W) :
    Fork.rows_per_process D W = D / W ∧ 0 ≤ D / W ∧ D / W * W ≤ D ∧ D < D / W * W + W := by
  refine ⟨Int.tdiv_eq_ediv hD (by omega), Int.ediv_nonneg hD (by omega),
    Int.ediv_mul_le D (by omega), ?_⟩
  have h := Int.lt_ediv_add_one_mul_self D (show 0 < W by omega)
  have h2 : (D / W + 1) * W = D / W * W + W := by ring
  omega

/-- Every range but the last is `[i*base, (i+1)*base)`. -/
theorem end_row_inner (D W i : Int) (hi : i ≠ W - 1) :
    Fork.end_row D W i = (i + 1) * Fork.rows_per_process D W := by
  unfold Fork.end_row Fork.start_row
  rw [if_neg hi]
  ring

/-- The last range ends at `D`. -/
theorem end_row_last (D W : Int) : Fork.end_row D W (W - 1) = D := by
  unfold Fork.end_row
  rw [if_pos rfl]

/-- Each range of the partition lies inside `[0, D)` and is not reversed. -/
theorem fork_range_bounds (D W i : Int) (hD : 0 ≤ D) (hW : 1 ≤ W) (hi0 : 0 ≤ i) (hiW : i < W) :
    0 ≤ Fork.start_row D W i ∧ Fork.start_row D W i ≤ Fork.end_row D W i
      ∧ Fork.end_row D W i ≤ D := by
  obtain ⟨hb, hb0, hlo, _⟩ := rows_per_process_bounds D W hD hW
  have hs : Fork.start_row D W i = i * (D / W) := by unfold Fork.start_row; rw [hb]
  have h0 : 0 ≤ i * (D / W) := mul_nonneg hi0 hb0
  by_cases hl : i = W - 1
  · subst hl
    rw [end_row_last, hs]
    have h1 : (W - 1) * (D / W) = D / W * W - D / W := by ring
    omega
  · rw [end_row_inner D W i hl, hs, hb]
    have h1 : (i + 1) * (D / W) = i * (D / W) + D / W := by ring
    have h2 : (i + 1) * (D / W) ≤ W * (D / W) := mul_le_mul_of_nonneg_right (by omega) hb0
    have h3 : W * (D / W) = D / W * W := by ring
    omega

/-- Consecutive ranges are adjacent, and a later range starts at or after the end of an
earlier one. -/
theorem fork_range_ordered (D W i j : Int) (hD : 0 ≤ D) (hW : 1 ≤ W) (hij : i < j)
    (hjW : j < W) : Fork.end_row D W i ≤ Fork.start_row D W j := by
  obtain ⟨hb, hb0, _, _⟩ := rows_per_process_bounds D W hD hW
  rw [end_row_inner D W i (by omega)]
  unfold Fork.start_row
  rw [hb]
  exact mul_le_mul_of_nonneg_right (by omega) hb0

/-- Every row of `[0, D)` lies in the range of some worker. -/
theorem fork_range_cover (D W r : Int) (hD : 0 ≤ D) (hW : 1 ≤ W) (hr0 : 0 ≤ r) (hrD : r < D) :
    ∃ i, 0 ≤ i ∧ i < W ∧ Fork.start_row D W i ≤ r ∧ r < Fork.end_row D W i := by
  obtain ⟨hb, hb0, _, _⟩ := rows_per_process_bounds D W hD hW
  by_cases hlast : (W - 1) * (D / W) ≤ r
  · refine ⟨W - 1, by omega, by omega, ?_, ?_⟩
    · unfold Fork.start_row
      rw [hb]
      exact hlast
    · rw [end_row_last]
      exact hrD
  · have hbpos : 0 < D / W := by
      by_contra h
      have h0 : D / W = 0 := by omega
      rw [h0] at hlast
      simp at hlast
      omega
    have hq0 : 0 ≤ r / (D / W) := Int.ediv_nonneg hr0 hb0
    have hq1 : r / (D / W) * (D / W) ≤ r := Int.ediv_mul_le r (by omega)
    have hq2 : r < (r / (D / W) + 1) * (D / W) := Int.lt_ediv_add_one_mul_self r hbpos
    have hq3 : r / (D / W) < W - 1 := by
      by_contra hcon
      have : (W - 1) * (D / W) ≤ r / (D / W) * (D / W) :=
        mul_le_mul_of_nonneg_right (by omega) hb0
      omega
    refine ⟨r / (D / W), hq0, by omega, ?_, ?_⟩
    · unfold Fork.start_row
      rw [hb]
      exact hq1
    · rw [end_row_inner D W _ (by omega), hb]
      exact hq2

/-- The lengths of the first `n ≤ W - 1` ranges add up to `n * base`. -/
theorem fork_length_prefix (D W : Int) (n : Nat) (hn : (n : Int) ≤ W - 1) :
    ∑ i in Finset.range n, (Fork.end_row D W i - Fork.start_row D W i)
      = n * Fork.rows_per_process D W := by
  induction n with
  | zero => simp
  | succ n ih =>
    have hn1 : ((n : Nat) : Int) ≤ W - 1 := by push_cast at hn; omega
    rw [Finset.sum_range_succ, ih hn1, end_row_inner D W n (by push_cast at hn; omega)]
    unfold Fork.start_row
    push_cast
    ring

/-- C2. Process-engine partition: for `D ≥ 1` and `W ≥ 1` the row ranges `[start_row i, end_row i)`,
`0 ≤ i < W`, of `main` of `mmClasicaFork.c` are pairwise disjoint, their union is exactly
`[0, D)`, each lies inside `[0, D)`, and their lengths add up to `D`. -/
theorem fork_partition (D W : Int) (hD : 1 ≤ D) (hW : 1 ≤ W) :
    (∀ i j r : Int, 0 ≤ i → i < j → j < W →
        ¬ ((Fork.start_row D W i ≤ r ∧ r < Fork.end_row D W i)
          ∧ (Fork.start_row D W j ≤ r ∧ r < Fork.end_row D W j)))
      ∧ (∀ r : Int, (0 ≤ r ∧ r < D)
          ↔ ∃ i, 0 ≤ i ∧ i < W ∧ Fork.start_row D W i ≤ r ∧ r < Fork.end_row D W i)
      ∧ (∀ i : Int, 0 ≤ i → i < W →
          0 ≤ Fork.start_row D W i ∧ Fork.start_row D W i ≤ Fork.end_row D W i
            ∧ Fork.end_row D W i ≤ D)
      ∧ ∑ i in Finset.range W.toNat, (Fork.end_row D W i - Fork.start_row D W i) = D := by
  refine ⟨?_, ?_, ?_, ?_⟩
  · rintro i j r _ hij hjW ⟨⟨_, h1⟩, ⟨h2, _⟩⟩
    have := fork_range_ordered D W i j (by omega) hW hij hjW
    omega
  · intro r
    constructor
    · rintro ⟨h0, h1⟩
      exact fork_range_cover D W r (by omega) hW h0 h1
    · rintro ⟨i, hi0, hiW, h1, h2⟩
      have := fork_range_bounds D W i (by omega) hW hi0 hiW
      omega
  · intro i hi0 hiW
    exact fork_range_bounds D W i (by omega) hW hi0 hiW
  · have hW1 : W.toNat = (W - 1).toNat + 1 := by omega
    have hc : (((W - 1).toNat : Nat) : Int) = W - 1 := Int.toNat_of_nonneg (by omega)
    rw [hW1, Finset.sum_range_succ, fork_length_prefix D W (W - 1).toNat (by omega), hc,
      end_row_last]
    unfold Fork.start_row
    ring

/-- C2 at `D = 7`, `W = 3`: the ranges are `[0,2)`, `[2,4)`, `[4,7)`. -/
theorem fork_partition_witness :
    (∀ i j r : Int, 0 ≤ i → i < j → j < 3 →
        ¬ ((Fork.start_row 7 3 i ≤ r ∧ r < Fork.end_row 7 3 i)
          ∧ (Fork.start_row 7 3 j ≤ r ∧ r < Fork.end_row 7 3 j)))
      ∧ (∀ r : Int, (0 ≤ r ∧ r < 7)
          ↔ ∃ i, 0 ≤ i ∧ i < 3 ∧ Fork.start_row 7 3 i ≤ r ∧ r < Fork.end_row 7 3 i)
      ∧ (∀ i : Int, 0 ≤ i → i < 3 →
          0 ≤ Fork.start_row 7 3 i ∧ Fork.start_row 7 3 i ≤ Fork.end_row 7 3 i
            ∧ Fork.end_row 7 3 i ≤ 7)
      ∧ ∑ i in Finset.range (3 : Int).toNat, (Fork.end_row 7 3 i - Fork.start_row 7 3 i) = 7 :=
  fork_partition 7 3 (by decide) (by decide)

/-! ## The process engine -/

/-- When every `fork()` succeeds the loop of `main` creates one child per remaining iteration,
in order, and the buffer `matC` of the parent is the one it started with. -/
theorem spawnLoop_all_ok (forkOk : Int → Bool) (hok : ∀ i, forkOk i = true)
    (A B C : Buf) (N W : Int) :
    ∀ (n : Nat) (i : Int) (acc : List Fork.Child), (W - i).toNat = n → i ≤ W →
      Fork.spawnLoop forkOk A B C N W i acc
        = Outcome.finished
            (acc ++ (List.range n).map (fun (k : Nat) => Fork.child A B C N W (i + k))) C := by
  intro n
  induction n with
  | zero =>
    intro i acc hn hle
    rw [Fork.spawnLoop, if_neg (by omega)]
    simp
  | succ n ih =>
    intro i acc hn hle
    rw [Fork.spawnLoop, if_pos (by omega), if_pos (hok i), ih (i + 1) _ (by omega) (by omega)]
    rw [List.range_succ_eq_map, List.map_cons, List.map_map, List.append_assoc]
    have hk : ∀ k : Nat, i + 1 + (k : Int) = i + ((k + 1 : Nat) : Int) := by
      intro k
      push_cast
      ring
    simp [Function.comp, hk]

/-- The run of `main` of `mmClasicaFork.c` when it gets its two arguments, `num_P ≥ 1` and every
`fork()` succeeds. -/
theorem fork_main_ok (argc N W : Int) (forkOk : Int → Bool) (hok : ∀ i, forkOk i = true)
    (A B : Buf) (hargc : 3 ≤ argc) (hW : 1 ≤ W) :
    Fork.main argc N W forkOk A B
      = Outcome.finished
          ((List.range W.toNat).map (fun (k : Nat) => Fork.child A B zeros N W k)) zeros := by
  unfold Fork.main
  rw [if_neg (by omega), if_neg (by omega),
    spawnLoop_all_ok forkOk hok A B zeros N W W.toNat 0 [] (by omega) (by omega)]
  simp

/-- C9. Process-engine range sizes: with `base = ⌊D/W⌋`, every worker `i < W - 1` of
`mmClasicaFork.c` gets exactly `base` rows and the last one gets `D - base*(W-1) = base + D mod W`
rows, between 0 and `W - 1` more than `base`; when `W > D` the first `W - 1` ranges are empty and
the last is `[0, D)`; and `main` creates `W` workers, worker `i` with the range
`[start_row i, end_row i)`. -/
theorem fork_range_sizes (D W : Int) (hD : 1 ≤ D) (hW : 1 ≤ W) :
    Fork.rows_per_process D W = D / W
      ∧ (∀ i : Int, 0 ≤ i → i < W - 1 →
          Fork.end_row D W i - Fork.start_row D W i = D / W)
      ∧ Fork.end_row D W (W - 1) - Fork.start_row D W (W - 1) = D - D / W * (W - 1)
      ∧ D - D / W * (W - 1) = D / W + D % W
      ∧ (0 ≤ D % W ∧ D % W ≤ W - 1)
      ∧ (D < W →
          (∀ i : Int, 0 ≤ i → i < W - 1 → Fork.start_row D W i = 0 ∧ Fork.end_row D W i = 0)
            ∧ Fork.start_row D W (W - 1) = 0 ∧ Fork.end_row D W (W - 1) = D)
      ∧ (∀ A B : Buf,
          (Fork.main 3 D W (fun _ => true) A B).workers.map (fun c => (c.start_row, c.end_row))
            = (List.range W.toNat).map
                (fun (i : Nat) => (Fork.start_row D W i, Fork.end_row D W i))) := by
  obtain ⟨hb, hb0, hlo, hhi⟩ := rows_per_process_bounds D W (by omega) hW
  refine ⟨hb, ?_, ?_, ?_, ⟨Int.emod_nonneg D (by omega), ?_⟩, ?_, ?_⟩
  · intro i _ hi
    rw [end_row_inner D W i (by omega)]
    unfold Fork.start_row
    rw [hb]
    ring
  · rw [end_row_last]
    unfold Fork.start_row
    rw [hb]
    ring
  · have h := Int.ediv_add_emod D W
    have h1 : D / W * (W - 1) = W * (D / W) - D / W := by ring
    omega
  · have := Int.emod_lt_of_pos D (show 0 < W by omega)
    omega
  · intro hDW
    have hz : D / W = 0 := Int.ediv_eq_zero_of_lt (by omega) hDW
    refine ⟨fun i _ hi => ?_, ?_, end_row_last D W⟩
    · rw [end_row_inner D W i (by omega)]
      unfold Fork.start_row
      rw [hb, hz]
      simp
    · unfold Fork.start_row
      rw [hb, hz]
      simp
  · intro A B
    rw [fork_main_ok 3 D W (fun _ => true) (fun _ => rfl) A B (by decide) hW]
    simp [Outcome.workers, Fork.child, Function.comp]

/-- C9 at `D = 2`, `W = 5`: four empty ranges and the last one `[0, 2)`. -/
theorem fork_range_sizes_witness :
    Fork.rows_per_process 2 5 = 2 / 5
      ∧ (∀ i : Int, 0 ≤ i → i < 5 - 1 →
          Fork.end_row 2 5 i - Fork.start_row 2 5 i = 2 / 5)
      ∧ Fork.end_row 2 5 (5 - 1) - Fork.start_row 2 5 (5 - 1) = 2 - 2 / 5 * (5 - 1)
      ∧ (2 : Int) - 2 / 5 * (5 - 1) = 2 / 5 + 2 % 5
      ∧ ((0 : Int) ≤ 2 % 5 ∧ (2 : Int) % 5 ≤ 5 - 1)
      ∧ ((2 : Int) < 5 →
          (∀ i : Int, 0 ≤ i → i < 5 - 1 → Fork.start_row 2 5 i = 0 ∧ Fork.end_row 2 5 i = 0)
            ∧ Fork.start_row 2 5 (5 - 1) = 0 ∧ Fork.end_row 2 5 (5 - 1) = 2)
      ∧ (∀ A B : Buf,
          (Fork.main 3 2 5 (fun _ => true) A B).workers.map (fun c => (c.start_row, c.end_row))
            = (List.range (5 : Int).toNat).map
                (fun (i : Nat) => (Fork.start_row 2 5 i, Fork.end_row 2 5 i))) :=
  fork_range_sizes 2 5 (by decide) (by decide)

/-- The classic kernel run on a zeroed buffer leaves zero outside the rows of its range. -/
theorem fork_multiMatrix_zeros_outside (D filaI filaF : Int) (A B : Buf) (hD : 1 ≤ D) (p : Int)
    (hp : ¬ (filaI * D ≤ p ∧ p < filaF * D)) :
    Fork.multiMatrix A B zeros D filaI filaF p = 0 := by
  rw [fork_multiMatrix_apply A B zeros D filaI filaF hD, if_neg hp]
  rfl

/-- C6, as the code has it. With `fork()` giving each child its own copy of the memory of the
parent, for `D ≥ 1`, `W ≥ 1` and every `fork()` succeeding: once the parent has waited for its `W`
children, its own `matC` is still the zeroed buffer `calloc` returned; the product exists only in
the copies of the children, child `w` holding `sum_k A[i*D+k] * B[k*D+j]` in the cells of the rows
of its range and zero everywhere else. -/
theorem fork_result_stays_in_children (argc D W : Int) (forkOk : Int → Bool) (A B : Buf)
    (hargc : 3 ≤ argc) (hD : 1 ≤ D) (hW : 1 ≤ W) (hok : ∀ i, forkOk i = true) :
    Fork.main argc D W forkOk A B
        = Outcome.finished
            ((List.range W.toNat).map (fun (w : Nat) => Fork.child A B zeros D W w)) zeros
      ∧ (∀ p : Int, zeros p = 0)
      ∧ (∀ w i j : Int, 0 ≤ w → w < W →
          Fork.start_row D W w ≤ i → i < Fork.end_row D W w → 0 ≤ j → j < D →
          (Fork.child A B zeros D W w).matC (i * D + j)
            = ∑ k in Finset.range D.toNat, A (i * D + k) * B (k * D + j))
      ∧ (∀ w p : Int,
          ¬ (Fork.start_row D W w * D ≤ p ∧ p < Fork.end_row D W w * D) →
          (Fork.child A B zeros D W w).matC p = 0) := by
  refine ⟨fork_main_ok argc D W forkOk hok A B hargc hW, fun _ => rfl, ?_, ?_⟩
  · intro w i j _ _ hi1 hi2 hj1 hj2
    show Fork.multiMatrix A B zeros D (Fork.start_row D W w) (Fork.end_row D W w) (i * D + j) = _
    rw [fork_multiMatrix_cell D _ _ A B zeros hD i j ⟨hi1, hi2⟩ ⟨hj1, hj2⟩,
      classicCell_sum A B D i j (by omega)]
  · intro w p hp
    exact fork_multiMatrix_zeros_outside D _ _ A B hD p hp

/-- C6 as amended, at `D = 2`, `W = 2`, `A = [1,2,3,4]`, `B = [5,6,7,8]`. -/
theorem fork_result_stays_in_children_witness :
    Fork.main 3 2 2 (fun _ => true) (ofList [1, 2, 3, 4]) (ofList [5, 6, 7, 8])
      = Outcome.finished
          ((List.range (2 : Int).toNat).map
            (fun (w : Nat) => Fork.child (ofList [1, 2, 3, 4]) (ofList [5, 6, 7, 8]) zeros 2 2 w))
          zeros :=
  (fork_result_stays_in_children 3 2 2 (fun _ => true) (ofList [1, 2, 3, 4])
    (ofList [5, 6, 7, 8]) (by decide) (by decide) (by decide) (fun _ => rfl)).1

/-- C6 as stated fails: at `D = 2`, `W = 2`, `A = [1,2,3,4]`, `B = [5,6,7,8]`, after the parent has
waited for both children its `matC[0*2+0]` is `0`, while `sum_k A[0*2+k] * B[k*2+0] = 19`. -/
theorem fork_parent_matC_not_product :
    ∃ children matC,
      Fork.main 3 2 2 (fun _ => true) (ofList [1, 2, 3, 4]) (ofList [5, 6, 7, 8])
          = Outcome.finished children matC
        ∧ matC (0 * 2 + 0) = 0
        ∧ ∑ k in Finset.range (2 : Int).toNat,
            ofList [1, 2, 3, 4] (0 * 2 + k) * ofList [5, 6, 7, 8] (k * 2 + 0) = 19
        ∧ matC (0 * 2 + 0) ≠ ∑ k in Finset.range (2 : Int).toNat,
            ofList [1, 2, 3, 4] (0 * 2 + k) * ofList [5, 6, 7, 8] (k * 2 + 0) := by
  refine ⟨_, _, fork_main_ok 3 2 2 (fun _ => true) (fun _ => rfl) _ _ (by decide) (by decide),
    rfl, by decide, ?_⟩
  show (0 : Int) ≠ _
  decide

/-- Closed form of the kernel calls of the `W` workers applied one after another to one buffer:
all rows of `[0, D)` are computed. -/
theorem sequential_apply (A B C : Buf) (D W : Int) (hD : 1 ≤ D) (hW : 1 ≤ W) (p : Int) :
    Fork.sequential A B C D W p
      = if 0 ≤ p ∧ p < D * D then classicCell A B D (p / D) (p % D) else C p := by
  have key := forLoop_invariant
    (fun (i : Int) (mC : Buf) => 0 ≤ i ∧
      ∀ q, mC q = if 0 ≤ q ∧ q < (if i = W then D else Fork.start_row D W i) * D
        then classicCell A B D (q / D) (q % D) else C q)
    0 W
    (fun i mC => Fork.multiMatrix A B mC D (Fork.start_row D W i) (Fork.end_row D W i)) C
    (by omega)
    (by
      refine ⟨le_refl _, fun q => ?_⟩
      rw [if_neg (by omega : ¬ (0 : Int) = W)]
      unfold Fork.start_row
      rw [if_neg (by omega)])
    (by
      rintro i mC hi0 hiW ⟨_, hmC⟩
      refine ⟨by omega, fun q => ?_⟩
      show Fork.multiMatrix A B mC D (Fork.start_row D W i) (Fork.end_row D W i) q = _
      rw [fork_multiMatrix_apply A B mC D _ _ hD, hmC q,
        if_neg (by omega : ¬ i = W)]
      obtain ⟨hs0, hse, heD⟩ := fork_range_bounds D W i (by omega) hW hi0 hiW
      have hnext : (if i + 1 = W then D else Fork.start_row D W (i + 1)) = Fork.end_row D W i := by
        by_cases hl : i = W - 1
        · subst hl
          rw [if_pos (by ring), end_row_last]
        · rw [if_neg (by omega), end_row_inner D W i hl]
          rfl
      rw [hnext]
      have h1 : 0 ≤ Fork.start_row D W i * D := mul_nonneg hs0 (by omega)
      have h2 : Fork.start_row D W i * D ≤ Fork.end_row D W i * D :=
        mul_le_mul_of_nonneg_right hse (by omega)
      by_cases ha : Fork.start_row D W i * D ≤ q ∧ q < Fork.end_row D W i * D
      · rw [if_pos ha, if_pos (by omega)]
      · rw [if_neg ha]
        by_cases hb : 0 ≤ q ∧ q < Fork.start_row D W i * D
        · rw [if_pos hb, if_pos (by omega)]
        · rw [if_neg hb, if_neg (by omega)])
  have h := key.2 p
  rw [if_pos rfl] at h
  exact h

/-- C4. Worker-count independence: for `D ≥ 1` and `W ≥ 1`, running the classic kernel once per
range of the partition of `mmClasicaFork.c` for `W` workers, one range after another on the same
`C`, gives in every cell the same `C` as with `W = 1`, which is the single call on `[0, D)`. -/
theorem worker_count_independent (D W : Int) (A B C : Buf) (hD : 1 ≤ D) (hW : 1 ≤ W) :
    Fork.sequential A B C D W = Fork.sequential A B C D 1
      ∧ Fork.sequential A B C D 1 = Fork.multiMatrix A B C D 0 D := by
  constructor
  · funext p
    rw [sequential_apply A B C D W hD hW, sequential_apply A B C D 1 hD (le_refl _)]
  · funext p
    rw [sequential_apply A B C D 1 hD (le_refl _), fork_multiMatrix_apply A B C D 0 D hD,
      zero_mul]

/-- C4 at `D = 8`, `W = 4` against `W = 1`, with `A[p] = p + 1`, `B[p] = 2*p + 3` and `C` zero. -/
theorem worker_count_independent_witness :
    Fork.sequential (fun p => p + 1) (fun p => 2 * p + 3) zeros 8 4
        = Fork.sequential (fun p => p + 1) (fun p => 2 * p + 3) zeros 8 1
      ∧ Fork.sequential (fun p => p + 1) (fun p => 2 * p + 3) zeros 8 1
        = Fork.multiMatrix (fun p => p + 1) (fun p => 2 * p + 3) zeros 8 0 8 :=
  worker_count_independent 8 4 (fun p => p + 1) (fun p => 2 * p + 3) zeros (by decide)
    (by decide)

/-! ## The parallel-for engines -/

/-- The innermost loop of the transposed kernel leaves in `Suma` the sum of the products
`mA[i*D+k] * mB[j*D+k]`. -/
theorem transCell_sum (mA mB : Buf) (D i j : Int) (hD : 0 ≤ D) :
    transCell mA mB D i j = ∑ k in Finset.range D.toNat, mA (i * D + k) * mB (j * D + k) := by
  unfold transCell
  have key := forLoop_invariant
    (fun (k : Int) (c : Cursor) => 0 ≤ k ∧ c.pA = i * D + k ∧ c.pB = j * D + k ∧
      c.Suma = ∑ n in Finset.range k.toNat, mA (i * D + n) * mB (j * D + n))
    0 D (fun _ c => Cursor.mk (c.Suma + mA c.pA * mB c.pB) (c.pA + 1) (c.pB + 1))
    (Cursor.mk 0 (i * D) (j * D)) hD
    (by simp)
    (by
      rintro k c hk0 _ ⟨_, hpA, hpB, hS⟩
      refine ⟨by omega, by simp [hpA]; ring, by simp [hpB]; ring, ?_⟩
      have hk : (k + 1).toNat = k.toNat + 1 := by omega
      have hkk : ((k.toNat : Nat) : Int) = k := Int.toNat_of_nonneg hk0
      simp only [hk, Finset.sum_range_succ]
      rw [← hS, hpA, hpB, hkk])
  exact key.2.2.2

/-- Closed form of `multiMatrix` of `mmClasicaOpenMP.c`. -/
theorem openmp_multiMatrix_apply (mA mB mC : Buf) (D : Int) (hD : 1 ≤ D) (p : Int) :
    OpenMP.multiMatrix mA mB mC D p
      = if 0 ≤ p ∧ p < D * D then classicCell mA mB D (p / D) (p % D) else mC p := by
  have h := rowsLoop_apply (classicCell mA mB D) D 0 D mC hD p
  rw [zero_mul] at h
  exact h

/-- Closed form of `multiMatrixTrans` of `mmFilasOpenMP.c`. -/
theorem filas_multiMatrixTrans_apply (mA mB mC : Buf) (D : Int) (hD : 1 ≤ D) (p : Int) :
    Filas.multiMatrixTrans mA mB mC D p
      = if 0 ≤ p ∧ p < D * D then transCell mA mB D (p / D) (p % D) else mC p := by
  have h := rowsLoop_apply (transCell mA mB D) D 0 D mC hD p
  rw [zero_mul] at h
  exact h

/-- Row and column of an offset inside the `D×D` matrix. -/
theorem div_mod_in_range (D p : Int) (hD : 1 ≤ D) (hp0 : 0 ≤ p) (hpD : p < D * D) :
    (0 ≤ p / D ∧ p / D < D) ∧ (0 ≤ p % D ∧ p % D < D) :=
  ⟨⟨Int.ediv_nonneg hp0 (by omega), Int.ediv_lt_of_lt_mul (by omega) hpD⟩,
    ⟨Int.emod_nonneg p (by omega), Int.emod_lt_of_pos p (by omega)⟩⟩

/-- With `Bt` the transpose of `B`, the two innermost loops add up the same products. -/
theorem transCell_eq_classicCell (A B Bt : Buf) (D i j : Int) (hD : 1 ≤ D)
    (hT : ∀ j k : Int, 0 ≤ j → j < D → 0 ≤ k → k < D → Bt (j * D + k) = B (k * D + j))
    (hj : 0 ≤ j ∧ j < D) :
    transCell A Bt D i j = classicCell A B D i j := by
  rw [transCell_sum A Bt D i j (by omega), classicCell_sum A B D i j (by omega)]
  apply Finset.sum_congr rfl
  intro k hk
  have hk1 : (k : Int) < D := by
    have := Finset.mem_range.mp hk
    omega
  rw [hT j k hj.1 hj.2 (by omega) hk1]

/-- C5. Transposed/classic equivalence: for `D ≥ 1`, when `Bt` is the exact transpose of `B`,
`multiMatrixTrans(A, Bt, C, D)` of `mmFilasOpenMP.c` leaves the same buffer `C` as the classic
`multiMatrix(A, B, C, D)` of `mmClasicaOpenMP.c` (row loops run in ascending order), and each
cell is `sum_k A[i*D+k] * Bt[j*D+k] = sum_k A[i*D+k] * B[k*D+j]`. -/
theorem transposed_classic_equiv (D : Int) (A B Bt C : Buf) (hD : 1 ≤ D)
    (hT : ∀ j k : Int, 0 ≤ j → j < D → 0 ≤ k → k < D → Bt (j * D + k) = B (k * D + j)) :
    Filas.multiMatrixTrans A Bt C D = OpenMP.multiMatrix A B C D
      ∧ ∀ i j : Int, 0 ≤ i → i < D → 0 ≤ j → j < D →
          Filas.multiMatrixTrans A Bt C D (i * D + j)
              = ∑ k in Finset.range D.toNat, A (i * D + k) * Bt (j * D + k)
            ∧ OpenMP.multiMatrix A B C D (i * D + j)
              = ∑ k in Finset.range D.toNat, A (i * D + k) * B (k * D + j)
            ∧ ∑ k in Finset.range D.toNat, A (i * D + k) * Bt (j * D + k)
              = ∑ k in Finset.range D.toNat, A (i * D + k) * B (k * D + j) := by
  constructor
  · funext p
    rw [filas_multiMatrixTrans_apply A Bt C D hD, openmp_multiMatrix_apply A B C D hD]
    by_cases hp : 0 ≤ p ∧ p < D * D
    · rw [if_pos hp, if_pos hp]
      exact transCell_eq_classicCell A B Bt D _ _ hD hT (div_mod_in_range D p hD hp.1 hp.2).2
    · rw [if_neg hp, if_neg hp]
  · intro i j hi0 hiD hj0 hjD
    have hcell := cell_div_mod D i j hj0 hjD
    have h1 : i * D ≤ (D - 1) * D := mul_le_mul_of_nonneg_right (by omega) (by omega)
    have h2 : (D - 1) * D = D * D - D := by ring
    have h3 : 0 ≤ i * D := mul_nonneg hi0 (by omega)
    have hin : 0 ≤ i * D + j ∧ i * D + j < D * D := by omega
    refine ⟨?_, ?_, ?_⟩
    · rw [filas_multiMatrixTrans_apply A Bt C D hD, if_pos hin, hcell.1, hcell.2,
        transCell_sum A Bt D i j (by omega)]
    · rw [openmp_multiMatrix_apply A B C D hD, if_pos hin, hcell.1, hcell.2,
        classicCell_sum A B D i j (by omega)]
    · rw [← transCell_sum A Bt D i j (by omega), ← classicCell_sum A B D i j (by omega)]
      exact transCell_eq_classicCell A B Bt D i j hD hT ⟨hj0, hjD⟩

/-- C5 at `D = 2`, `B = [5,6,7,8]`, `Bt = [5,7,6,8]`, `A = [1,2,3,4]`. -/
theorem transposed_classic_equiv_witness :
    Filas.multiMatrixTrans (ofList [1, 2, 3, 4]) (ofList [5, 7, 6, 8]) zeros 2
      = OpenMP.multiMatrix (ofList [1, 2, 3, 4]) (ofList [5, 6, 7, 8]) zeros 2 :=
  (transposed_classic_equiv 2 (ofList [1, 2, 3, 4]) (ofList [5, 6, 7, 8]) (ofList [5, 7, 6, 8])
    zeros (by decide)
    (by
      intro j k hj0 hj2 hk0 hk2
      have hj : j = 0 ∨ j = 1 := by omega
      have hk : k = 0 ∨ k = 1 := by omega
      rcases hj with rfl | rfl <;> rcases hk with rfl | rfl <;> decide)).1

/-! ## The timing harness -/

/-- C7. Timer arithmetic across a second boundary: for a start `(s0, u0)` and a stop `(s1, u1)`
with both microsecond fields in `[0, 1000000)` and the stop not earlier than the start, the value
`FinMuestra` computes is `(s1 - s0)*1000000 + (u1 - u0)`, it is not negative, and it is the
elapsed time `(s1*1000000 + u1) - (s0*1000000 + u0)`, also when `u1 < u0`. -/
theorem timer_elapsed (s0 u0 s1 u1 : Int) (hu0 : 0 ≤ u0 ∧ u0 < 1000000)
    (hu1 : 0 ≤ u1 ∧ u1 < 1000000) (hord : s0 < s1 ∨ (s0 = s1 ∧ u0 ≤ u1)) :
    FinMuestra (timeval.mk s0 u0) (timeval.mk s1 u1) = (s1 - s0) * 1000000 + (u1 - u0)
      ∧ 0 ≤ FinMuestra (timeval.mk s0 u0) (timeval.mk s1 u1)
      ∧ FinMuestra (timeval.mk s0 u0) (timeval.mk s1 u1)
          = (s1 * 1000000 + u1) - (s0 * 1000000 + u0) := by
  have h : FinMuestra (timeval.mk s0 u0) (timeval.mk s1 u1)
      = (s1 - s0) * 1000000 + (u1 - u0) := rfl
  rw [h]
  refine ⟨rfl, ?_, by ring⟩
  rcases hord with hlt | ⟨heq, hle⟩
  · omega
  · subst heq
    omega

/-- C7 at start `(1, 999999)` and stop `(2, 1)`: the reported time is `2`. -/
theorem timer_elapsed_witness :
    FinMuestra (timeval.mk 1 999999) (timeval.mk 2 1) = 2
      ∧ 0 ≤ FinMuestra (timeval.mk 1 999999) (timeval.mk 2 1) := by
  have h := timer_elapsed 1 999999 2 1 (by decide) (by decide) (Or.inl (by decide))
  refine ⟨?_, h.2.1⟩
  rw [h.2.2]
  decide

/-! ## The `main` functions with one thread or none -/

/-- With `TH ≤ 1`, `main` of `mmClasicaOpenMP.c` runs the kernel with a team of one thread. -/
theorem openmp_main_one_thread (argc N TH : Int) (assign : List (List Int))
    (schedule : List Nat) (A B : Buf) (hargc : 3 ≤ argc) (hTH : TH ≤ 1) :
    OpenMP.main argc N TH assign schedule A B
      = Outcome.finished [] (OpenMP.multiMatrix A B zeros N) := by
  unfold OpenMP.main
  rw [if_neg (by omega), if_pos hTH]

/-- Closed form of the thread function `multiMatrix` of `mmClasicaPosix.c`. -/
theorem posix_multiMatrix_apply (mA mB mC : Buf) (data : Posix.parametros) (hN : 1 ≤ data.N)
    (p : Int) :
    Posix.multiMatrix mA mB mC data p
      = if Posix.filaI data * data.N ≤ p ∧ p < Posix.filaF data * data.N
        then classicCell mA mB data.N (p / data.N) (p % data.N) else mC p :=
  rowsLoop_apply (classicCell mA mB data.N) data.N (Posix.filaI data) (Posix.filaF data) mC hN p

/-- C3 fails on the code at `D = 3`, `W = 2`: the threads give themselves the rows `[0, 1)` and
`[1, 2)`, row 2 is in the range of no thread, and after both threads have run `C[2*3+0]` is
still `0` while `sum_k A[2*3+k] * B[k*3+0] = 3` for `A` and `B` filled with ones. -/
theorem posix_drops_remainder_row :
    (Posix.filaI (Posix.parametros.mk 2 0 3) = 0 ∧ Posix.filaF (Posix.parametros.mk 2 0 3) = 1
        ∧ Posix.filaI (Posix.parametros.mk 2 1 3) = 1
        ∧ Posix.filaF (Posix.parametros.mk 2 1 3) = 2)
      ∧ (∀ idH : Int, 0 ≤ idH → idH < 2 →
          ¬ (Posix.filaI (Posix.parametros.mk 2 idH 3) ≤ 2
            ∧ 2 < Posix.filaF (Posix.parametros.mk 2 idH 3)))
      ∧ (∃ threads C, Posix.main 3 3 2 (fun _ => 1) (fun _ => 1) = Outcome.finished threads C
          ∧ C (2 * 3 + 0) = 0)
      ∧ ∑ k in Finset.range (3 : Int).toNat,
          (fun _ => 1 : Buf) (2 * 3 + k) * (fun _ => 1 : Buf) (k * 3 + 0) = 3 := by
  refine ⟨by decide, ?_, ?_, by decide⟩
  · intro idH h0 h2
    have h : idH = 0 ∨ idH = 1 := by omega
    rcases h with rfl | rfl <;> decide
  · have hmain : Posix.main 3 3 2 (fun _ => 1) (fun _ => 1)
        = Outcome.finished
            [Posix.parametros.mk 2 0 3, Posix.parametros.mk 2 1 3]
            (Posix.multiMatrix (fun _ => 1) (fun _ => 1)
              (Posix.multiMatrix (fun _ => 1) (fun _ => 1) zeros (Posix.parametros.mk 2 0 3))
              (Posix.parametros.mk 2 1 3)) := by
      unfold Posix.main
      rw [if_neg (by decide), forLoop_step _ _ _ _ (by decide),
        forLoop_step _ _ _ _ (by decide), forLoop_done _ _ _ _ (by decide)]
      rfl
    refine ⟨_, _, hmain, ?_⟩
    rw [posix_multiMatrix_apply _ _ _ _ (by decide), if_neg (by decide),
      posix_multiMatrix_apply _ _ _ _ (by decide), if_neg (by decide)]
    rfl

/-- The threads of `main` of `mmClasicaPosix.c`, run in order of creation on the zeroed `matrixC`:
thread `j` is given `(nH, idH, N) = (W, j, N)`, and together the threads compute the rows
`[0, W * ⌊N/W⌋)` and nothing else. -/
theorem posix_threads_loop (A B : Buf) (N W : Int) (hN : 1 ≤ N) (hW : 1 ≤ W) :
    (forLoop 0 W
        (fun j (st : List Posix.parametros × Buf) =>
          (st.1 ++ [Posix.parametros.mk W j N],
            Posix.multiMatrix A B st.2 (Posix.parametros.mk W j N)))
        ([], zeros)).1
        = (List.range W.toNat).map (fun (j : Nat) => Posix.parametros.mk W j N)
      ∧ ∀ q : Int,
        (forLoop 0 W
          (fun j (st : List Posix.parametros × Buf) =>
            (st.1 ++ [Posix.parametros.mk W j N],
              Posix.multiMatrix A B st.2 (Posix.parametros.mk W j N)))
          ([], zeros)).2 q
          = if 0 ≤ q ∧ q < W * (N / W) * N then classicCell A B N (q / N) (q % N) else 0 := by
  have hb : Int.tdiv N W = N / W := Int.tdiv_eq_ediv (by omega) (by omega)
  have hb0 : 0 ≤ N / W := Int.ediv_nonneg (by omega) (by omega)
  have key := forLoop_invariant
    (fun (j : Int) (st : List Posix.parametros × Buf) => 0 ≤ j
      ∧ st.1 = (List.range j.toNat).map (fun (n : Nat) => Posix.parametros.mk W n N)
      ∧ ∀ q : Int, st.2 q
          = if 0 ≤ q ∧ q < j * (N / W) * N then classicCell A B N (q / N) (q % N) else 0)
    0 W
    (fun j (st : List Posix.parametros × Buf) =>
      (st.1 ++ [Posix.parametros.mk W j N],
        Posix.multiMatrix A B st.2 (Posix.parametros.mk W j N)))
    ([], zeros) (by omega)
    (by
      refine ⟨le_refl _, by simp, fun q => ?_⟩
      rw [if_neg (by omega)]
      rfl)
    (by
      rintro j st hj0 _ ⟨_, hlist, hbuf⟩
      refine ⟨by omega, ?_, fun q => ?_⟩
      · have hj1 : (j + 1).toNat = j.toNat + 1 := by omega
        have hjj : ((j.toNat : Nat) : Int) = j := Int.toNat_of_nonneg hj0
        show st.1 ++ [Posix.parametros.mk W j N] = _
        rw [hj1, List.range_succ, List.map_append, hlist]
        simp [hjj]
      · show Posix.multiMatrix A B st.2 (Posix.parametros.mk W j N) q = _
        rw [posix_multiMatrix_apply A B st.2 _ hN, hbuf q]
        have hI : Posix.filaI (Posix.parametros.mk W j N) * N = j * (N / W) * N := by
          show Int.tdiv N W * j * N = _
          rw [hb]
          ring
        have hF : Posix.filaF (Posix.parametros.mk W j N) * N
            = j * (N / W) * N + N / W * N := by
          show Int.tdiv N W * (j + 1) * N = _
          rw [hb]
          ring
        have hS : (j + 1) * (N / W) * N = j * (N / W) * N + N / W * N := by ring
        have h1 : 0 ≤ j * (N / W) * N := mul_nonneg (mul_nonneg hj0 hb0) (by omega)
        have h2 : 0 ≤ N / W * N := mul_nonneg hb0 (by omega)
        show (if Posix.filaI (Posix.parametros.mk W j N) * N ≤ q
              ∧ q < Posix.filaF (Posix.parametros.mk W j N) * N
            then classicCell A B N (q / N) (q % N)
            else if 0 ≤ q ∧ q < j * (N / W) * N then classicCell A B N (q / N) (q % N) else 0)
          = _
        rw [hI, hF, hS]
        by_cases ha : j * (N / W) * N ≤ q ∧ q < j * (N / W) * N + N / W * N
        · rw [if_pos ha, if_pos (by omega)]
        · rw [if_neg ha]
          by_cases hc : 0 ≤ q ∧ q < j * (N / W) * N
          · rw [if_pos hc, if_pos (by omega)]
          · rw [if_neg hc, if_neg (by omega)])
  exact ⟨key.2.1, key.2.2⟩

/-- The run of `main` of `mmClasicaPosix.c` when it gets its two arguments and `n_threads ≥ 1`
(with `N ≥ 1`): `W` threads are created, and `matrixC` ends with the rows `[0, W * ⌊N/W⌋)`
computed and every other entry zero. -/
theorem posix_main_ok (argc N W : Int) (A B : Buf) (hargc : 3 ≤ argc) (hN : 1 ≤ N)
    (hW : 1 ≤ W) :
    ∃ C : Buf,
      Posix.main argc N W A B
          = Outcome.finished
              ((List.range W.toNat).map (fun (j : Nat) => Posix.parametros.mk W j N)) C
        ∧ ∀ q : Int, C q
            = if 0 ≤ q ∧ q < W * (N / W) * N then classicCell A B N (q / N) (q % N) else 0 := by
  obtain ⟨h1, h2⟩ := posix_threads_loop A B N W hN hW
  refine ⟨_, ?_, h2⟩
  unfold Posix.main
  rw [if_neg (by omega)]
  show Outcome.finished _ _ = _
  rw [h1]

/-- The rows that some thread gives itself are exactly `[0, W * ⌊D/W⌋)`. -/
theorem posix_rows_written (D W r : Int) (hD : 1 ≤ D) (hW : 1 ≤ W) :
    (∃ idH : Int, 0 ≤ idH ∧ idH < W ∧ Posix.filaI (Posix.parametros.mk W idH D) ≤ r
        ∧ r < Posix.filaF (Posix.parametros.mk W idH D))
      ↔ (0 ≤ r ∧ r < W * (D / W)) := by
  have hb : Int.tdiv D W = D / W := Int.tdiv_eq_ediv (by omega) (by omega)
  have hb0 : 0 ≤ D / W := Int.ediv_nonneg (by omega) (by omega)
  constructor
  · rintro ⟨idH, h0, hlt, hI, hF⟩
    have hI2 : D / W * idH ≤ r := by
      have : Posix.filaI (Posix.parametros.mk W idH D) = D / W * idH := by
        show Int.tdiv D W * idH = _
        rw [hb]
      omega
    have hF2 : r < D / W * (idH + 1) := by
      have : Posix.filaF (Posix.parametros.mk W idH D) = D / W * (idH + 1) := by
        show Int.tdiv D W * (idH + 1) = _
        rw [hb]
      omega
    have h3 : 0 ≤ D / W * idH := mul_nonneg hb0 h0
    have h4 : D / W * (idH + 1) ≤ D / W * W := mul_le_mul_of_nonneg_left (by omega) hb0
    have h5 : D / W * W = W * (D / W) := by ring
    omega
  · rintro ⟨h0, hlt⟩
    have hbpos : 0 < D / W := by
      by_contra h
      have hz : D / W = 0 := by omega
      rw [hz] at hlt
      simp at hlt
      omega
    have hq0 : 0 ≤ r / (D / W) := Int.ediv_nonneg h0 hb0
    have hq1 : r / (D / W) * (D / W) ≤ r := Int.ediv_mul_le r (by omega)
    have hq2 : r < (r / (D / W) + 1) * (D / W) := Int.lt_ediv_add_one_mul_self r hbpos
    have hq3 : r / (D / W) < W := by
      by_contra hcon
      have : W * (D / W) ≤ r / (D / W) * (D / W) := mul_le_mul_of_nonneg_right (by omega) hb0
      omega
    refine ⟨r / (D / W), hq0, hq3, ?_, ?_⟩
    · show Int.tdiv D W * (r / (D / W)) ≤ r
      rw [hb, mul_comm]
      exact hq1
    · show r < Int.tdiv D W * (r / (D / W) + 1)
      rw [hb, mul_comm]
      exact hq2

/-- C13. Thread-engine remainder rows are dropped: for `D ≥ 1` and `W ≥ 1` the rows that the `W`
threads of `mmClasicaPosix.c` give themselves are exactly `[0, W * ⌊D/W⌋)`; after `main` has
joined them these rows of `C` hold the product, and every row `W * ⌊D/W⌋ ≤ r < D` is still zero
as `calloc` left it. Rows are dropped exactly when `W` does not divide `D`, and when `W > D`
nothing of `C` is computed. -/
theorem posix_remainder_rows_dropped (argc D W : Int) (A B : Buf) (hargc : 3 ≤ argc)
    (hD : 1 ≤ D) (hW : 1 ≤ W) :
    (∀ r : Int,
        (∃ idH : Int, 0 ≤ idH ∧ idH < W ∧ Posix.filaI (Posix.parametros.mk W idH D) ≤ r
          ∧ r < Posix.filaF (Posix.parametros.mk W idH D))
        ↔ (0 ≤ r ∧ r < W * (D / W)))
      ∧ (∃ C : Buf,
          Posix.main argc D W A B
              = Outcome.finished
                  ((List.range W.toNat).map (fun (j : Nat) => Posix.parametros.mk W j D)) C
            ∧ (∀ r c : Int, 0 ≤ r → r < W * (D / W) → 0 ≤ c → c < D →
                C (r * D + c) = ∑ k in Finset.range D.toNat, A (r * D + k) * B (k * D + c))
            ∧ (∀ r c : Int, W * (D / W) ≤ r → r < D → 0 ≤ c → c < D → C (r * D + c) = 0)
            ∧ (D < W → ∀ p : Int, C p = 0))
      ∧ W * (D / W) ≤ D
      ∧ (W * (D / W) < D ↔ ¬ W ∣ D)
      ∧ (D < W → W * (D / W) = 0) := by
  have hz : D < W → D / W = 0 := fun h => Int.ediv_eq_zero_of_lt (by omega) h
  have hle : W * (D / W) ≤ D := by
    have := Int.ediv_mul_le D (show W ≠ 0 by omega)
    rw [mul_comm]
    exact this
  refine ⟨fun r => posix_rows_written D W r hD hW, ?_, hle, ?_, ?_⟩
  · obtain ⟨C, hmain, hC⟩ := posix_main_ok argc D W A B hargc hD hW
    refine ⟨C, hmain, ?_, ?_, ?_⟩
    · intro r c hr0 hr1 hc0 hc1
      have hcell := cell_div_mod D r c hc0 hc1
      have h1 : 0 ≤ r * D := mul_nonneg hr0 (by omega)
      have h2 : (r + 1) * D ≤ W * (D / W) * D := mul_le_mul_of_nonneg_right (by omega) (by omega)
      have h3 : (r + 1) * D = r * D + D := by ring
      rw [hC, if_pos (by omega), hcell.1, hcell.2, classicCell_sum A B D r c (by omega)]
    · intro r c hr0 _ hc0 _
      have h1 : W * (D / W) * D ≤ r * D := mul_le_mul_of_nonneg_right hr0 (by omega)
      rw [hC, if_neg (by omega)]
    · intro hDW p
      rw [hC, hz hDW, if_neg (by simp)]
  · have hmod := Int.ediv_add_emod D W
    have hnn := Int.emod_nonneg D (show W ≠ 0 by omega)
    rw [Int.dvd_iff_emod_eq_zero]
    constructor
    · intro h1 h2
      omega
    · intro h1
      omega
  · intro hDW
    rw [hz hDW]
    simp

/-- C13 at `D = 7`, `W = 3`: the threads take the rows `[0, 6)`, and row 6 is in the range of
no thread. -/
theorem posix_remainder_rows_dropped_witness :
    ((∃ idH : Int, 0 ≤ idH ∧ idH < 3 ∧ Posix.filaI (Posix.parametros.mk 3 idH 7) ≤ 6
        ∧ 6 < Posix.filaF (Posix.parametros.mk 3 idH 7))
      ↔ ((0 : Int) ≤ 6 ∧ (6 : Int) < 3 * (7 / 3)))
      ∧ (3 : Int) * (7 / 3) ≤ 7 :=
  ⟨(posix_remainder_rows_dropped 3 7 3 zeros zeros (by decide) (by decide) (by decide)).1 6,
    (posix_remainder_rows_dropped 3 7 3 zeros zeros (by decide) (by decide) (by decide)).2.2.1⟩

/-! ## The known small case -/

/-- A buffer whose first four entries are the cells of the classic kernel for `D = 2`,
`A = [1,2,3,4]`, `B = [5,6,7,8]` starts with `[19, 22, 43, 50]`. -/
theorem small_case_cells (C : Buf)
    (h : ∀ q : Int, 0 ≤ q → q < 4 →
      C q = classicCell (ofList [1, 2, 3, 4]) (ofList [5, 6, 7, 8]) 2 (q / 2) (q % 2)) :
    C.toList 4 = [19, 22, 43, 50] := by
  have h0 : C 0 = 19 := by
    rw [h 0 (by decide) (by decide), classicCell_sum _ _ 2 _ _ (by decide)]
    decide
  have h1 : C 1 = 22 := by
    rw [h 1 (by decide) (by decide), classicCell_sum _ _ 2 _ _ (by decide)]
    decide
  have h2 : C 2 = 43 := by
    rw [h 2 (by decide) (by decide), classicCell_sum _ _ 2 _ _ (by decide)]
    decide
  have h3 : C 3 = 50 := by
    rw [h 3 (by decide) (by decide), classicCell_sum _ _ 2 _ _ (by decide)]
    decide
  show [C 0, C 1, C 2, C 3] = _
  rw [h0, h1, h2, h3]

/-- The thread engine on the small case, for a worker count `W` with `W * ⌊2/W⌋ = 2`. -/
theorem posix_small_case (W : Int) (hW : 1 ≤ W) (hfull : W * (2 / W) * 2 = 4) :
    ∃ threads C,
      Posix.main 3 2 W (ofList [1, 2, 3, 4]) (ofList [5, 6, 7, 8]) = Outcome.finished threads C
        ∧ C.toList 4 = [19, 22, 43, 50] := by
  obtain ⟨C, hmain, hC⟩ := posix_main_ok 3 2 W (ofList [1, 2, 3, 4]) (ofList [5, 6, 7, 8])
    (by decide) (by decide) hW
  refine ⟨_, C, hmain, small_case_cells C ?_⟩
  intro q hq0 hq4
  rw [hC q, hfull, if_pos ⟨hq0, hq4⟩]

/-- A team of one thread with both rows, stepped through the parallel region, leaves what the
kernel run in order leaves on the small case, for the classic and for the transposed kernel. -/
theorem region_one_thread_small_case :
    (regionRun false (ofList [1, 2, 3, 4]) (ofList [5, 6, 7, 8]) 2 (List.replicate 42 0)
        (regionStart zeros [[0, 1]])).finished = true
      ∧ (regionRun false (ofList [1, 2, 3, 4]) (ofList [5, 6, 7, 8]) 2 (List.replicate 42 0)
        (regionStart zeros [[0, 1]])).sh.mC.toList 4 = [19, 22, 43, 50]
      ∧ (regionRun true (ofList [1, 2, 3, 4]) (ofList [5, 7, 6, 8]) 2 (List.replicate 42 0)
        (regionStart zeros [[0, 1]])).sh.mC.toList 4 = [19, 22, 43, 50] := by
  decide

/-- C11. Known small case on the three classic engines, each run sequentially: for `D = 2`,
`A = [1,2,3,4]`, `B = [5,6,7,8]` and `C` zero at the start, the result is `C = [19,22,43,50]`
with `W = 1` and with `W = 2` for the process engine (the kernel calls of the ranges of
`mmClasicaFork.c` run one after another), for the thread engine (`main` of `mmClasicaPosix.c`,
threads run in the order of creation) and for the parallel-for engine: `multiMatrix` of
`mmClasicaOpenMP.c` with its row loop run in order, `main` with `W = 1` (a team of one thread),
and `main` with `W = 2` when the two threads, one row each, run one after the other, in either
order. Nothing is said here of two OpenMP threads that interleave. -/
theorem known_small_case :
    ((Fork.sequential (ofList [1, 2, 3, 4]) (ofList [5, 6, 7, 8]) zeros 2 1).toList 4
          = [19, 22, 43, 50]
        ∧ (Fork.sequential (ofList [1, 2, 3, 4]) (ofList [5, 6, 7, 8]) zeros 2 2).toList 4
          = [19, 22, 43, 50])
      ∧ ((∃ threads C,
            Posix.main 3 2 1 (ofList [1, 2, 3, 4]) (ofList [5, 6, 7, 8])
                = Outcome.finished threads C
              ∧ C.toList 4 = [19, 22, 43, 50])
        ∧ (∃ threads C,
            Posix.main 3 2 2 (ofList [1, 2, 3, 4]) (ofList [5, 6, 7, 8])
                = Outcome.finished threads C
              ∧ C.toList 4 = [19, 22, 43, 50]))
      ∧ ((OpenMP.multiMatrix (ofList [1, 2, 3, 4]) (ofList [5, 6, 7, 8]) zeros 2).toList 4
          = [19, 22, 43, 50]
        ∧ (∀ (assign : List (List Int)) (schedule : List Nat),
            ∃ C, OpenMP.main 3 2 1 assign schedule (ofList [1, 2, 3, 4]) (ofList [5, 6, 7, 8])
                = Outcome.finished [] C
              ∧ C.toList 4 = [19, 22, 43, 50])
        ∧ (∃ C, OpenMP.main 3 2 2 [[0], [1]] (List.replicate 21 0 ++ List.replicate 21 1)
                  (ofList [1, 2, 3, 4]) (ofList [5, 6, 7, 8])
                = Outcome.finished [] C
              ∧ C.toList 4 = [19, 22, 43, 50])
        ∧ (∃ C, OpenMP.main 3 2 2 [[0], [1]] (List.replicate 21 1 ++ List.replicate 21 0)
                  (ofList [1, 2, 3, 4]) (ofList [5, 6, 7, 8])
                = Outcome.finished [] C
              ∧ C.toList 4 = [19, 22, 43, 50])) := by
  have hseq : ∀ W : Int, 1 ≤ W →
      (Fork.sequential (ofList [1, 2, 3, 4]) (ofList [5, 6, 7, 8]) zeros 2 W).toList 4
        = [19, 22, 43, 50] := by
    intro W hW
    apply small_case_cells
    intro q hq0 hq4
    rw [sequential_apply _ _ _ 2 W (by decide) hW, if_pos ⟨hq0, hq4⟩]
  have homp : (OpenMP.multiMatrix (ofList [1, 2, 3, 4]) (ofList [5, 6, 7, 8]) zeros 2).toList 4
      = [19, 22, 43, 50] := by
    apply small_case_cells
    intro q hq0 hq4
    rw [openmp_multiMatrix_apply _ _ _ 2 (by decide), if_pos ⟨hq0, hq4⟩]
  have htwo : ∀ schedule : List Nat,
      (regionRun false (ofList [1, 2, 3, 4]) (ofList [5, 6, 7, 8]) 2 schedule
        (regionStart zeros [[0], [1]])).finished = true →
      OpenMP.main 3 2 2 [[0], [1]] schedule (ofList [1, 2, 3, 4]) (ofList [5, 6, 7, 8])
        = Outcome.finished []
            (regionRun false (ofList [1, 2, 3, 4]) (ofList [5, 6, 7, 8]) 2 schedule
              (regionStart zeros [[0], [1]])).sh.mC := by
    intro schedule hfin
    unfold OpenMP.main
    rw [if_neg (by decide), if_neg (by decide), if_pos hfin]
  refine ⟨⟨hseq 1 (by decide), hseq 2 (by decide)⟩,
    ⟨posix_small_case 1 (by decide) (by decide), posix_small_case 2 (by decide) (by decide)⟩,
    ⟨homp, ?_, ?_, ?_⟩⟩
  · intro assign schedule
    exact ⟨_, openmp_main_one_thread 3 2 1 assign schedule _ _ (by decide) (by decide), homp⟩
  · exact ⟨_, htwo _ (by decide), by decide⟩
  · exact ⟨_, htwo _ (by decide), by decide⟩

/-! ## The frame of the classic kernel -/

/-- Two loops over the same range whose bodies keep a relation between their states end in
related states. -/
theorem forLoop_rel {σ τ : Type} (R : σ → τ → Prop) (hi : Int) (body1 : Int → σ → σ)
    (body2 : Int → τ → τ) :
    ∀ (n : Nat) (lo : Int) (s : σ) (t : τ), (hi - lo).toNat = n → R s t →
      (∀ i s t, lo ≤ i → i < hi → R s t → R (body1 i s) (body2 i t)) →
      R (forLoop lo hi body1 s) (forLoop lo hi body2 t) := by
  intro n
  induction n with
  | zero =>
    intro lo s t hn h0 _
    rw [forLoop_done _ _ _ _ (by omega), forLoop_done _ _ _ _ (by omega)]
    exact h0
  | succ n ih =>
    intro lo s t hn h0 hstep
    have hlt : lo < hi := by omega
    rw [forLoop_step _ _ _ _ hlt, forLoop_step _ _ _ _ hlt]
    apply ih (lo + 1) _ _ (by omega) (hstep lo s t (le_refl _) hlt h0)
    intro i s1 t1 h1 h2 h3
    exact hstep i s1 t1 (by omega) h2 h3

/-- The kernel leaves the arrays `mA` and `mB` as they are, and what it leaves in `mC` is the
value of `Fork.multiMatrix`. -/
theorem multiMatrixMem_eq (A B C : Buf) (D filaI filaF : Int) :
    Fork.multiMatrixMem (Mem.mk A B C) D filaI filaF
      = Mem.mk A B (Fork.multiMatrix A B C D filaI filaF) := by
  unfold Fork.multiMatrixMem Fork.multiMatrix
  apply forLoop_rel (fun (m : Mem) (c : Buf) => m = Mem.mk A B c) filaF _ _
    (filaF - filaI).toNat filaI _ _ rfl rfl
  intro i m c _ _ hm
  apply forLoop_rel (fun (m : Mem) (c : Buf) => m = Mem.mk A B c) D _ _
    (D - 0).toNat 0 _ _ rfl hm
  intro j m1 c1 _ _ hm1
  subst hm1
  rfl

/-- C12. Classic kernel frame: for `D ≥ 1`, `multiMatrix(A, B, C, D, filaI, filaF)` of
`mmClasicaFork.c` leaves `A` and `B` unchanged and leaves unchanged every cell `C[r*D+c]`,
`0 ≤ c < D`, whose row `r` is outside `[filaI, filaF)`; for an empty range, `filaI ≥ filaF`, it
changes nothing in `C`. The bounds `0 ≤ filaI` and `filaF ≤ D` are not needed for this. -/
theorem classic_kernel_frame (D filaI filaF : Int) (A B C : Buf) (hD : 1 ≤ D) :
    (Fork.multiMatrixMem (Mem.mk A B C) D filaI filaF).mA = A
      ∧ (Fork.multiMatrixMem (Mem.mk A B C) D filaI filaF).mB = B
      ∧ (Fork.multiMatrixMem (Mem.mk A B C) D filaI filaF).mC
          = Fork.multiMatrix A B C D filaI filaF
      ∧ (∀ r c : Int, ¬ (filaI ≤ r ∧ r < filaF) → 0 ≤ c → c < D →
          (Fork.multiMatrixMem (Mem.mk A B C) D filaI filaF).mC (r * D + c) = C (r * D + c))
      ∧ (filaF ≤ filaI → (Fork.multiMatrixMem (Mem.mk A B C) D filaI filaF).mC = C) := by
  rw [multiMatrixMem_eq]
  refine ⟨rfl, rfl, rfl, ?_, ?_⟩
  · intro r c hr hc0 hcD
    show Fork.multiMatrix A B C D filaI filaF (r * D + c) = _
    rw [fork_multiMatrix_apply A B C D filaI filaF hD]
    have h1 : (r + 1) * D = r * D + D := by ring
    by_cases hlow : r < filaI
    · have h2 : (r + 1) * D ≤ filaI * D := mul_le_mul_of_nonneg_right (by omega) (by omega)
      rw [if_neg (by omega)]
    · have h2 : filaF * D ≤ r * D := mul_le_mul_of_nonneg_right (by omega) (by omega)
      rw [if_neg (by omega)]
  · intro hempty
    show Fork.multiMatrix A B C D filaI filaF = C
    unfold Fork.multiMatrix
    rw [forLoop_done _ _ _ _ hempty]

/-- C12 at `D = 2`, `A = [1,2,3,4]`, `B = [5,6,7,8]`, `C = [9,9,9,9]` and the row range
`[1, 2)`: row 0 of `C` keeps its entries. -/
theorem classic_kernel_frame_witness :
    (Fork.multiMatrixMem (Mem.mk (ofList [1, 2, 3, 4]) (ofList [5, 6, 7, 8]) (ofList [9, 9, 9, 9]))
        2 1 2).mA = ofList [1, 2, 3, 4]
      ∧ (Fork.multiMatrixMem
          (Mem.mk (ofList [1, 2, 3, 4]) (ofList [5, 6, 7, 8]) (ofList [9, 9, 9, 9]))
          2 1 2).mC (0 * 2 + 1) = 9 := by
  have h := classic_kernel_frame 2 1 2 (ofList [1, 2, 3, 4]) (ofList [5, 6, 7, 8])
    (ofList [9, 9, 9, 9]) (by decide)
  refine ⟨h.1, ?_⟩
  rw [h.2.2.2.1 0 1 (by decide) (by decide) (by decide)]
  decide

/-! ## Index safety of the classic kernel -/

/-- For `1 ≤ D ≤ 46340` the number of elements `D * D` fits in an `int`. -/
theorem sq_fits_int32 (D : Int) (hD1 : 1 ≤ D) (hD2 : D ≤ 46340) : D * D ≤ 2147395600 := by
  have h := mul_le_mul hD2 hD2 (by omega) (by omega : (0 : Int) ≤ 46340)
  omega

/-- A flat index `r * D + c` with `0 ≤ r < D` and `0 ≤ c < D` lies in `[0, D * D)`, and so does
`c + r * D`. -/
theorem flat_index_in_range (D r c : Int) (hr0 : 0 ≤ r) (hrD : r < D) (hc0 : 0 ≤ c)
    (hcD : c < D) : 0 ≤ r * D ∧ r * D + D ≤ D * D ∧ 0 ≤ r * D + c ∧ r * D + c < D * D := by
  have h1 : 0 ≤ r * D := mul_nonneg hr0 (by omega)
  have h2 : (r + 1) * D ≤ D * D := mul_le_mul_of_nonneg_right (by omega) (by omega)
  have h3 : (r + 1) * D = r * D + D := by ring
  omega

theorem int32_of_range (x : Int) (h0 : 0 ≤ x) (h1 : x ≤ 2147395600) : int32 x = some x := by
  unfold int32
  rw [if_pos (by omega)]

/-- With `1 ≤ D ≤ 46340` and the cell inside the matrix, every check of the innermost loop
passes and it gives the value of the unchecked loop. -/
theorem classicCellChk_eq (A B : Buf) (D i j : Int) (hD1 : 1 ≤ D) (hD2 : D ≤ 46340)
    (hi : 0 ≤ i ∧ i < D) (hj : 0 ≤ j ∧ j < D) :
    classicCellChk A B (D * D) D i j = some (classicCell A B D i j) := by
  have hsq := sq_fits_int32 D hD1 hD2
  obtain ⟨hiD0, hiD1, _, _⟩ := flat_index_in_range D i j hi.1 hi.2 hj.1 hj.2
  unfold classicCellChk
  rw [int32_of_range (i * D) hiD0 (by omega)]
  show Option.map Cursor.Suma (forLoop 0 D _ (some (Cursor.mk 0 (i * D) j))) = _
  have key := forLoop_invariant
    (fun (k : Int) (oc : Option Cursor) => 0 ≤ k ∧ ∃ c : Cursor, oc = some c
      ∧ c.pA = i * D + k ∧ c.pB = j + k * D
      ∧ c.Suma = (List.range k.toNat).foldl
          (fun (s : Int) (n : Nat) => s + A (i * D + n) * B (n * D + j)) 0)
    0 D
    (fun _ (oc : Option Cursor) => oc.bind fun c =>
      (A.readChk (D * D) c.pA).bind fun a =>
        (B.readChk (D * D) c.pB).bind fun b =>
          some (Cursor.mk (c.Suma + a * b) (c.pA + 1) (c.pB + D)))
    (some (Cursor.mk 0 (i * D) j)) (by omega)
    (by
      refine ⟨le_refl _, Cursor.mk 0 (i * D) j, rfl, ?_, ?_, ?_⟩ <;> simp)
    (by
      rintro k oc hk0 hkD ⟨_, c, hoc, hpA, hpB, hS⟩
      subst hoc
      obtain ⟨hkD0, hkD1, _, _⟩ := flat_index_in_range D k j hk0 hkD hj.1 hj.2
      have hrA : A.readChk (D * D) c.pA = some (A c.pA) := by
        unfold Buf.readChk
        rw [if_pos (by omega)]
      have hrB : B.readChk (D * D) c.pB = some (B c.pB) := by
        unfold Buf.readChk
        rw [if_pos (by omega)]
      refine ⟨by omega, Cursor.mk (c.Suma + A c.pA * B c.pB) (c.pA + 1) (c.pB + D), ?_, ?_, ?_, ?_⟩
      · show (A.readChk (D * D) c.pA).bind _ = _
        rw [hrA]
        show (B.readChk (D * D) c.pB).bind _ = _
        rw [hrB]
        rfl
      · show c.pA + 1 = _
        rw [hpA]
        ring
      · show c.pB + D = _
        rw [hpB]
        ring
      · have hk : (k + 1).toNat = k.toNat + 1 := by omega
        have hkk : ((k.toNat : Nat) : Int) = k := Int.toNat_of_nonneg hk0
        show c.Suma + A c.pA * B c.pB = _
        simp only [hk, List.range_succ, List.foldl_append, List.foldl_cons, List.foldl_nil]
        rw [← hS, hpA, hpB, hkk]
        congr 2
        ring_nf)
  obtain ⟨_, c, hc, _, _, hS⟩ := key
  rw [hc, classicCell_foldl A B D i j (by omega), ← hS]
  rfl

/-- With `1 ≤ D ≤ 46340` and a row range inside `[0, D)`, every check of the kernel passes and it
leaves in `mC` what the unchecked kernel leaves. -/
theorem multiMatrixChk_eq (A B C : Buf) (D filaI filaF : Int) (hD1 : 1 ≤ D) (hD2 : D ≤ 46340)
    (hI : 0 ≤ filaI) (hF : filaF ≤ D) :
    Fork.multiMatrixChk A B C (D * D) D filaI filaF
      = some (Fork.multiMatrix A B C D filaI filaF) := by
  have hsq := sq_fits_int32 D hD1 hD2
  unfold Fork.multiMatrixChk Fork.multiMatrix
  apply forLoop_rel (fun (o : Option Buf) (c : Buf) => o = some c) filaF _ _
    (filaF - filaI).toNat filaI _ _ rfl rfl
  intro i o c hi0 hi1 ho
  apply forLoop_rel (fun (o : Option Buf) (c : Buf) => o = some c) D _ _
    (D - 0).toNat 0 _ _ rfl ho
  intro j o1 c1 hj0 hj1 ho1
  subst ho1
  obtain ⟨hiD0, hiD1, hidx0, hidx1⟩ := flat_index_in_range D i j (by omega) (by omega) hj0 hj1
  show (classicCellChk A B (D * D) D i j).bind _ = _
  rw [classicCellChk_eq A B D i j hD1 hD2 ⟨by omega, by omega⟩ ⟨hj0, hj1⟩]
  show (int32 (i * D)).bind _ = _
  rw [int32_of_range (i * D) hiD0 (by omega)]
  show (int32 (i * D + j)).bind _ = _
  rw [int32_of_range (i * D + j) hidx0 (by omega)]
  show Buf.writeChk c1 (D * D) (i * D + j) (classicCell A B D i j) = _
  unfold Buf.writeChk
  rw [if_pos ⟨hidx0, hidx1⟩]

/-- C14. Kernel index safety: for `1 ≤ D ≤ 46340` and `0 ≤ filaI ≤ filaF ≤ D`, `multiMatrix` of
`mmClasicaFork.c` run with every `int` index checked for the 32-bit signed range and every access
to `A`, `B`, `C` checked against `D * D` elements passes all checks and gives the result of the
kernel; `D * D` fits in an `int`; each index `i*D+k`, `k*D+j`, `i*D+j` with `filaI ≤ i < filaF`
and `0 ≤ j, k < D` lies in `[0, D*D)` and fits in an `int`; and the same holds for the range
`[start_row, end_row)` of every worker of the process engine, for every `W ≥ 1`. The order
`filaI ≤ filaF` is not needed: a reversed range runs no iteration. -/
theorem kernel_index_safety (D filaI filaF : Int) (A B C : Buf) (hD1 : 1 ≤ D)
    (hD2 : D ≤ 46340) (hI : 0 ≤ filaI) (hF : filaF ≤ D) :
    Fork.multiMatrixChk A B C (D * D) D filaI filaF
        = some (Fork.multiMatrix A B C D filaI filaF)
      ∧ int32 (D * D) = some (D * D)
      ∧ (∀ i j k : Int, filaI ≤ i → i < filaF → 0 ≤ j → j < D → 0 ≤ k → k < D →
          (0 ≤ i * D + k ∧ i * D + k < D * D ∧ int32 (i * D + k) = some (i * D + k))
            ∧ (0 ≤ k * D + j ∧ k * D + j < D * D ∧ int32 (k * D + j) = some (k * D + j))
            ∧ (0 ≤ i * D + j ∧ i * D + j < D * D ∧ int32 (i * D + j) = some (i * D + j)))
      ∧ (∀ W i : Int, 1 ≤ W → 0 ≤ i → i < W →
          (0 ≤ Fork.start_row D W i ∧ Fork.start_row D W i ≤ Fork.end_row D W i
            ∧ Fork.end_row D W i ≤ D)
          ∧ Fork.multiMatrixChk A B C (D * D) D (Fork.start_row D W i) (Fork.end_row D W i)
            = some (Fork.multiMatrix A B C D (Fork.start_row D W i) (Fork.end_row D W i))) := by
  have hsq := sq_fits_int32 D hD1 hD2
  have hDD : 0 ≤ D * D := mul_nonneg (by omega) (by omega)
  refine ⟨multiMatrixChk_eq A B C D filaI filaF hD1 hD2 hI hF,
    int32_of_range (D * D) hDD hsq, ?_, ?_⟩
  · intro i j k hi0 hi1 hj0 hj1 hk0 hk1
    obtain ⟨_, _, ha0, ha1⟩ := flat_index_in_range D i k (by omega) (by omega) hk0 hk1
    obtain ⟨_, _, hb0, hb1⟩ := flat_index_in_range D k j hk0 hk1 hj0 hj1
    obtain ⟨_, _, hc0, hc1⟩ := flat_index_in_range D i j (by omega) (by omega) hj0 hj1
    exact ⟨⟨ha0, ha1, int32_of_range _ ha0 (by omega)⟩,
      ⟨hb0, hb1, int32_of_range _ hb0 (by omega)⟩,
      ⟨hc0, hc1, int32_of_range _ hc0 (by omega)⟩⟩
  · intro W i hW hi0 hiW
    have hb := fork_range_bounds D W i (by omega) hW hi0 hiW
    exact ⟨hb, multiMatrixChk_eq A B C D _ _ hD1 hD2 hb.1 hb.2.2⟩

/-- C14 at `D = 2`, rows `[0, 2)`, `A = [1,2,3,4]`, `B = [5,6,7,8]`. -/
theorem kernel_index_safety_witness :
    Fork.multiMatrixChk (ofList [1, 2, 3, 4]) (ofList [5, 6, 7, 8]) zeros (2 * 2) 2 0 2
      = some (Fork.multiMatrix (ofList [1, 2, 3, 4]) (ofList [5, 6, 7, 8]) zeros 2 0 2) :=
  (kernel_index_safety 2 0 2 (ofList [1, 2, 3, 4]) (ofList [5, 6, 7, 8]) zeros (by decide)
    (by decide) (by decide) (by decide)).1

/-! ## The variables `Suma`, `pA`, `pB` of the parallel-for engines -/

/-- C15 fails on the code. For `D = 2`, `A = [1,2,3,4]`, `B = [5,6,7,8]` and two threads, thread
0 with row 0 and thread 1 with row 1: when each thread runs to its end in turn the region leaves
`C = [19,22,43,50]`; under the schedule in which thread 0 runs the loop over `k` for cell `(0,0)`,
thread 1 then executes `pA = ...; pB = ...; Suma = 0.0;`, and thread 0 then stores `Suma`, the
region ends with `C = [0,22,43,50]`: thread 1 has overwritten the sum of thread 0, because there
is one `Suma` for the whole region. The same holds for the transposed kernel. -/
theorem openmp_suma_is_shared :
    ((regionRun false (ofList [1, 2, 3, 4]) (ofList [5, 6, 7, 8]) 2
          (List.replicate 21 0 ++ List.replicate 21 1) (regionStart zeros [[0], [1]])).finished
        = true
      ∧ (regionRun false (ofList [1, 2, 3, 4]) (ofList [5, 6, 7, 8]) 2
          (List.replicate 21 0 ++ List.replicate 21 1)
          (regionStart zeros [[0], [1]])).sh.mC.toList 4 = [19, 22, 43, 50])
      ∧ ((regionRun false (ofList [1, 2, 3, 4]) (ofList [5, 6, 7, 8]) 2
          (List.replicate 9 0 ++ List.replicate 4 1 ++ [0] ++ List.replicate 17 1
            ++ List.replicate 11 0)
          (regionStart zeros [[0], [1]])).finished = true
        ∧ (regionRun false (ofList [1, 2, 3, 4]) (ofList [5, 6, 7, 8]) 2
          (List.replicate 9 0 ++ List.replicate 4 1 ++ [0] ++ List.replicate 17 1
            ++ List.replicate 11 0)
          (regionStart zeros [[0], [1]])).sh.mC.toList 4 = [0, 22, 43, 50])
      ∧ ((regionRun true (ofList [1, 2, 3, 4]) (ofList [5, 7, 6, 8]) 2
          (List.replicate 9 0 ++ List.replicate 4 1 ++ [0] ++ List.replicate 17 1
            ++ List.replicate 11 0)
          (regionStart zeros [[0], [1]])).finished = true
        ∧ (regionRun true (ofList [1, 2, 3, 4]) (ofList [5, 7, 6, 8]) 2
          (List.replicate 9 0 ++ List.replicate 4 1 ++ [0] ++ List.replicate 17 1
            ++ List.replicate 11 0)
          (regionStart zeros [[0], [1]])).sh.mC.toList 4 = [0, 22, 43, 50]) := by
  decide

/-- The checks are real: with `D = 1` and the row range `[0, 2)` the kernel reads `A[1]` outside
the one-element array, and the checked run fails. -/
theorem multiMatrixChk_row_past_end :
    Fork.multiMatrixChk (ofList [1]) (ofList [1]) zeros (1 * 1) 1 0 2 = none := by
  simp [Fork.multiMatrixChk, classicCellChk, forLoop_step, forLoop_done, int32, Buf.readChk,
    Buf.writeChk]

/-- The bound `46340` is the last one: the element count of a `46341 × 46341` matrix does not
fit in an `int`. -/
theorem sq_overflows_past_46340 : int32 (46341 * 46341) = none := by
  decide

/-! ## The worker-count argument -/

end MM
